import Mathlib

/-!
Verification of `src/advanced-vector/vector.h` (`RawMemory<T>` / `Vector<T>`).

Shallow embedding. A `RawMemory` block of capacity `C` together with the
liveness bookkeeping of its owning `Vector` is modelled as a list of length
`C` of `Option α` slots: `none` is an uninitialized slot, `some x` a live,
constructed element holding value `x`.  `Vector<T>` is the block plus the
`size_` counter.

Element operations of a general `T` (constructors, copy/move constructors,
copy/move assignments) may throw.  Throwing is modelled by an explicit
budget `b : Nat` threaded through each member function: every potentially
throwing element operation consumes one tick, and the operation whose tick
finds the budget at `0` throws.  An operation returns
`Except (Vec α) (Vec α)`: `.ok w` is normal return with container state
`w`, `.error w` is an exception propagating to the caller with the
container left in state `w`.  Destructors and raw-memory operations
(allocate, deallocate, pointer swap) never throw, exactly as in the source
(`RawMemory` is noexcept throughout).

The `if constexpr (std::is_nothrow_move_constructible_v<T> || ...)`
relocation branch is modelled by a boolean `nt`: when `nt = true`
relocation is by moves that cannot throw (consume no budget), when
`nt = false` relocation is by copy constructions, one tick each, and a
throwing `std::uninitialized_copy_n` destroys the elements it constructed
before rethrowing (the standard guarantee), leaving the source range
untouched.  Moves and copies transfer the same value in this value-level
model; moved-from elements keep their value, which is sound for every
observation the specification makes.
-/

namespace AdvVec

/-- A `Vector<T>` state: the `RawMemory` block (`dat`, one entry per raw
slot, `none` = uninitialized bytes, `some x` = live element) and `size_`. -/
structure Vec (α : Type) where
  dat : List (Option α)
  size : Nat
deriving Repr, DecidableEq

variable {α : Type}

/-- `Capacity()`: the number of raw slots of the owned block. -/
def Vec.cap (v : Vec α) : Nat := v.dat.length

/-- The container invariant of the spec: `size ≤ capacity`, slots
`[0, size)` hold live constructed elements, slots `[size, cap)` are
uninitialized. -/
def Vec.WF (v : Vec α) : Prop :=
  v.size ≤ v.cap ∧
    (∀ o ∈ v.dat.take v.size, o.isSome) ∧ (∀ o ∈ v.dat.drop v.size, o = none)

instance (v : Vec α) [DecidableEq α] : Decidable v.WF := by
  unfold Vec.WF; infer_instance

/-- The live element values, in slot order. -/
def Vec.elems (v : Vec α) : List α := (v.dat.take v.size).filterMap id

/-- Canonical well-formed state: live values `l` followed by `c`
uninitialized slots (capacity `l.length + c`). -/
def ofL (l : List α) (c : Nat) : Vec α :=
  ⟨l.map some ++ List.replicate c none, l.length⟩

/-- One pass of sequential element-wise assignments `slot i := value`, each
a potentially throwing copy/move assignment (one budget tick).  On a throw
the assignments already performed persist (`std::copy`, `std::move` and
`std::move_backward` perform no rollback).  The `(index, value)` pairs are
precomputed from the pre-loop block contents, which is faithful because in
each use below the loop reads every source slot strictly before any
assignment of the same pass overwrites it. -/
def assignLoop : List (Nat × Option α) → List (Option α) → Nat →
    Except (List (Option α)) (List (Option α) × Nat)
  | [], d, b => .ok (d, b)
  | p :: rest, d, b =>
    if b = 0 then .error d else assignLoop rest (d.set p.1 p.2) (b - 1)

/-- The contents of raw slot `j` of a block (`none` when uninitialized or
out of range). -/
def slot (d : List (Option α)) (j : Nat) : Option α := d.getD j none

/-- The cumulative effect of a completed assignment pass. -/
def setAll (pairs : List (Nat × Option α)) (d : List (Option α)) :
    List (Option α) :=
  pairs.foldl (fun d p => d.set p.1 p.2) d

/-- Assignment pairs of `std::move_backward(begin()+position, end()-1,
end())` on block `d` with `size_ = n`: slot `t :=` old slot `t-1` for
`t = n-1, n-2, ..., position+1`, in that (descending) order. -/
def backPairs (d : List (Option α)) (position n : Nat) : List (Nat × Option α) :=
  (List.range (n - 1 - position)).map fun k => (n - 1 - k, d.getD (n - 2 - k) none)

/-- Assignment pairs of `std::move(begin()+position+1, end(),
begin()+position)` on block `d` with `size_ = n`: slot `position+k :=` old
slot `position+k+1` for `k = 0, ..., n-position-2`, ascending. -/
def erasePairs (d : List (Option α)) (position n : Nat) : List (Nat × Option α) :=
  (List.range (n - position - 1)).map fun k =>
    (position + k, d.getD (position + 1 + k) none)

/-- Assignment pairs of `std::copy(src, src + m, begin())`: slot `i :=`
source slot `i` for `i = 0, ..., m-1`. -/
def copyPairs (src : List (Option α)) (m : Nat) : List (Nat × Option α) :=
  (List.range m).map fun i => (i, src.getD i none)

/-- `Vector(size_t size)` (vector.h:93-97): allocate a block of `size`
slots, then `std::uninitialized_value_construct_n` value-constructs an
element in every slot. -/
def mkVec (α : Type) [Inhabited α] (n : Nat) : Vec α :=
  ⟨List.replicate n (some default), n⟩

/-- `Vector()` (vector.h:91): default state — no block, size 0. -/
def emptyVec (α : Type) : Vec α := ⟨[], 0⟩

/-- `Vector(const Vector&)` (vector.h:99-103): allocate `other.size_`
slots, copy-construct the `other.size_` live elements into them.  Each
copy costs a tick; on a throw no vector object comes into existence
(`uninitialized_copy_n` destroys its partial work and `~RawMemory` frees
the block), hence the `Option`. -/
def Vec.copyCtor (o : Vec α) (b : Nat) : Option (Vec α) :=
  if o.size ≤ b then some ⟨o.dat.take o.size, o.size⟩ else none

/-- `Vector(Vector&&)` (vector.h:105-108): steal the block; the source is
left with no block and size 0.  noexcept.  Returns (constructed vector,
source after the move). -/
def Vec.moveCtor (o : Vec α) : Vec α × Vec α := (⟨o.dat, o.size⟩, ⟨[], 0⟩)

/-- `Swap` (vector.h:174-179) on distinct objects: exchange block and
size.  noexcept. -/
def Vec.swap (v o : Vec α) : Vec α × Vec α := (o, v)

/-- `operator=(Vector&&)` (vector.h:167-172) on distinct objects: Swap.
noexcept. -/
def Vec.moveAssign (v o : Vec α) : Vec α × Vec α := v.swap o

/-- `PopBack` (vector.h:231-236): if `size_ > 0`, destroy the last live
element and decrement `size_`; otherwise do nothing.  Destructors do not
throw. -/
def Vec.popBack (v : Vec α) : Vec α :=
  if v.size > 0 then ⟨v.dat.set (v.size - 1) none, v.size - 1⟩ else v

/-- `Reserve` (vector.h:181-194).  If `capacity ≥ new_capacity`, return at
once.  Otherwise allocate a fresh block of `new_capacity` slots, relocate
the `size_` live values into its prefix — `uninitialized_move_n`,
tick-free, when `nt`; else `uninitialized_copy_n`, one tick per element,
which on a throw destroys the prefix it constructed, leaving the original
container untouched — then destroy the originals and swap blocks in.
Returns the remaining budget on success. -/
def Vec.reserve (v : Vec α) (newCap : Nat) (nt : Bool) (b : Nat) :
    Except (Vec α) (Vec α × Nat) :=
  if v.cap ≥ newCap then .ok (v, b)
  else if nt then
    .ok (⟨v.dat.take v.size ++ List.replicate (newCap - v.size) none, v.size⟩, b)
  else if v.size ≤ b then
    .ok (⟨v.dat.take v.size ++ List.replicate (newCap - v.size) none, v.size⟩,
      b - v.size)
  else .error v

/-- `Resize` (vector.h:196-204): `Reserve(new_size)`, then value-construct
slots `[size_, new_size)` when growing (one tick each;
`uninitialized_value_construct_n` destroys the elements it already
constructed if one throws, so on a throw no slot changes liveness) or
destroy slots `[new_size, size_)` when shrinking (tick-free), then set
`size_ = new_size`. -/
def Vec.resize [Inhabited α] (v : Vec α) (newSize : Nat) (nt : Bool) (b : Nat) :
    Except (Vec α) (Vec α) :=
  match v.reserve newSize nt b with
  | .error w => .error w
  | .ok (w, b1) =>
    if newSize > w.size then
      if newSize - w.size ≤ b1 then
        .ok ⟨w.dat.take w.size ++ List.replicate (newSize - w.size) (some default)
          ++ w.dat.drop newSize, newSize⟩
      else .error w
    else
      .ok ⟨w.dat.take newSize ++ List.replicate (w.size - newSize) none
        ++ w.dat.drop w.size, newSize⟩

/-- `PushBack` (vector.h:206-224).  Full (`size_ ≥ capacity`): allocate a
fresh block of `size_ == 0 ? 1 : size_ * 2` slots; construct the new
element into fresh slot `size_` first (one tick — if it throws, the fresh
block is freed and `data_`/`size_` were never touched); then relocate the
old live values into fresh slots `[0, size_)` (move-if-noexcept tick-free,
else one tick per copy; a throwing copy pass destroys its own constructs
and the original block is untouched); destroy the old elements and swap
blocks.  Not full: construct the new element in place at slot `size_` (one
tick; if it throws the slot was never claimed).  Then `size_++`. -/
def Vec.pushBack (v : Vec α) (x : α) (nt : Bool) (b : Nat) :
    Except (Vec α) (Vec α) :=
  if v.size ≥ v.cap then
    if b = 0 then .error v
    else if nt ∨ v.size ≤ b - 1 then
      .ok ⟨v.dat.take v.size ++ some x ::
        List.replicate ((if v.size = 0 then 1 else v.size * 2) - v.size - 1) none,
        v.size + 1⟩
    else .error v
  else
    if b = 0 then .error v
    else .ok ⟨v.dat.set v.size (some x), v.size + 1⟩

/-- `Emplace` (vector.h:239-274) at `position = pos - begin()`.  Three
paths.  (1) Spare capacity, `pos == end()`: placement-construct at slot
`size_` (one tick).  (2) Spare capacity, middle: construct a temporary
(tick), move-construct the current last element into tail slot `size_`
(tick), `std::move_backward` slots `[position, size_-1)` one to the right
(tick per move assignment), move-assign the temporary into `position`
(tick) — all inside a `try` whose `catch` runs `operator delete(end())`, a
raw deallocation that invokes NO destructor and so changes no slot of the
block model, then rethrows.  (3) Full: as the full path of `PushBack`, but
the new element is constructed at fresh slot `position` and the old prefix
`[0, position)` / suffix `[position, size_)` are relocated around it.
Returns the new state and the returned iterator's index, `position`. -/
def Vec.emplace (v : Vec α) (position : Nat) (x : α) (nt : Bool) (b : Nat) :
    Except (Vec α) (Vec α × Nat) :=
  if v.size < v.cap then
    if position = v.size then
      if b = 0 then .error v
      else .ok (⟨v.dat.set v.size (some x), v.size + 1⟩, position)
    else
      if b = 0 then .error v
      else if b - 1 = 0 then .error v
      else
        match assignLoop (backPairs v.dat position v.size)
            (v.dat.set v.size (slot v.dat (v.size - 1))) (b - 2) with
        | .error d => .error ⟨d, v.size⟩
        | .ok (d, b3) =>
          if b3 = 0 then .error ⟨d, v.size⟩
          else .ok (⟨d.set position (some x), v.size + 1⟩, position)
  else
    if b = 0 then .error v
    else if nt ∨ v.size ≤ b - 1 then
      .ok (⟨v.dat.take position ++ some x ::
        ((v.dat.drop position).take (v.size - position)
          ++ List.replicate ((if v.size = 0 then 1 else v.size * 2) - v.size - 1) none),
        v.size + 1⟩, position)
    else .error v

/-- `EmplaceBack` (vector.h:226-229): `Emplace(end(), ...)`. -/
def Vec.emplaceBack (v : Vec α) (x : α) (nt : Bool) (b : Nat) :
    Except (Vec α) (Vec α × Nat) := v.emplace v.size x nt b

/-- `Insert` (vector.h:276-282), both overloads: `Emplace(pos, value)`. -/
def Vec.insertAt (v : Vec α) (position : Nat) (x : α) (nt : Bool) (b : Nat) :
    Except (Vec α) (Vec α × Nat) := v.emplace position x nt b

/-- `Erase` (vector.h:284-293): `std::move(begin()+position+1, end(),
begin()+position)` (one tick per move assignment; partial shifts persist
on a throw — there is no try/catch here), then destroy the last live slot
and decrement `size_`.  Returns the new state and the returned iterator's
index, `position`. -/
def Vec.erase (v : Vec α) (position : Nat) (b : Nat) :
    Except (Vec α) (Vec α × Nat) :=
  match assignLoop (erasePairs v.dat position v.size) v.dat b with
  | .error d => .error ⟨d, v.size⟩
  | .ok (d, _) => .ok (⟨d.set (v.size - 1) none, v.size - 1⟩, position)

/-- `CopyVector` (vector.h:139-153): copy-assign the common prefix
(`std::copy`, one tick per assignment, partial assignments persist on a
throw), then either copy-construct the remainder `[size_, other.size_)`
from `other` (`uninitialized_copy_n`: one tick each; destroys its own
constructs on a throw, so no slot of `*this` changes) or destroy slots
`[other.size_, size_)` (tick-free); finally `size_ = other.size_`. -/
def Vec.copyVector (v o : Vec α) (b : Nat) : Except (Vec α) (Vec α) :=
  match assignLoop (copyPairs o.dat (min v.size o.size)) v.dat b with
  | .error d => .error ⟨d, v.size⟩
  | .ok (d, b1) =>
    if v.size ≤ o.size then
      if o.size - v.size ≤ b1 then
        .ok ⟨d.take v.size ++ (o.dat.drop v.size).take (o.size - v.size)
          ++ d.drop o.size, o.size⟩
      else .error ⟨d, v.size⟩
    else
      .ok ⟨d.take o.size ++ List.replicate (v.size - o.size) none
        ++ d.drop v.size, o.size⟩

/-- `operator=(const Vector&)` (vector.h:154-165) on distinct objects: if
`other.size_ ≤ capacity`, reuse the block via `CopyVector(other)`;
otherwise build a full copy (`Vector other_copy(other)`, fallible copy
construction) and swap it in — if the copy throws, `*this` is untouched. -/
def Vec.copyAssign (v o : Vec α) (b : Nat) : Except (Vec α) (Vec α) :=
  if o.size ≤ v.cap then v.copyVector o b
  else
    match o.copyCtor b with
    | none => .error v
    | some w => .ok w

/-- The observable container state of a return, normal or error, satisfies
the invariant (used to state invariant preservation on both return kinds). -/
def stateWF : Except (Vec α) (Vec α) → Prop
  | .error w => w.WF
  | .ok w => w.WF

/-- As `stateWF`, for the operations that also return an iterator index or
a leftover budget. -/
def stateWF2 : Except (Vec α) (Vec α × Nat) → Prop
  | .error w => w.WF
  | .ok (w, _) => w.WF

theorem ofL_size (l : List α) (c : Nat) : (ofL l c).size = l.length := rfl

theorem ofL_cap (l : List α) (c : Nat) : (ofL l c).cap = l.length + c := by
  simp [ofL, Vec.cap]

theorem filterMap_id_map_some (l : List α) : (l.map some).filterMap id = l := by
  induction l with
  | nil => rfl
  | cons a t ih => simp [List.filterMap_cons, ih]

theorem ofL_dat_getElem (l : List α) (c i : Nat) :
    (ofL l c).dat[i]? =
      if i < l.length then l[i]?.map some
      else if i < l.length + c then some none else none := by
  simp only [ofL, List.getElem?_append, List.length_map, List.getElem?_map,
    List.getElem?_replicate]
  split
  · rfl
  · rename_i h
    split
    · rw [if_pos (by omega)]
    · rw [if_neg (by omega)]

theorem ofL_elems (l : List α) (c : Nat) : (ofL l c).elems = l := by
  have htake : (ofL l c).dat.take l.length = l.map some := by
    simp [ofL, List.take_append_of_le_length]
  simp only [Vec.elems, ofL_size, htake, filterMap_id_map_some]

theorem ofL_WF (l : List α) (c : Nat) : (ofL l c).WF := by
  refine ⟨by simp [ofL_cap, ofL_size], ?_, ?_⟩
  · intro o ho
    have : (ofL l c).dat.take l.length = l.map some := by
      simp [ofL, List.take_append_of_le_length]
    rw [ofL_size, this] at ho
    obtain ⟨x, _, rfl⟩ := List.mem_map.mp ho
    rfl
  · intro o ho
    have : (ofL l c).dat.drop l.length = List.replicate c none := by
      simp [ofL, List.drop_append_of_le_length]
    rw [ofL_size, this] at ho
    exact List.eq_of_mem_replicate ho

theorem allSome_filterMap (t : List (Option α)) (h : ∀ o ∈ t, o.isSome) :
    (t.filterMap id).map some = t := by
  induction t with
  | nil => rfl
  | cons a t ih =>
    obtain ⟨x, rfl⟩ :=
      Option.isSome_iff_exists.mp (h a (List.mem_cons_self a t))
    simp only [List.filterMap_cons, id, List.map_cons]
    rw [ih (fun o ho => h o (List.mem_cons_of_mem _ ho))]

/-- Every well-formed state is a canonical state: `v` is its live values
followed by `cap - size` uninitialized slots. -/
theorem WF_eq_ofL (v : Vec α) (h : v.WF) : v = ofL v.elems (v.cap - v.size) := by
  obtain ⟨hle, hlive, hdead⟩ := h
  have hmap : v.elems.map some = v.dat.take v.size := allSome_filterMap _ hlive
  have hlen : v.elems.length = v.size := by
    have h2 := congrArg List.length hmap
    simp only [List.length_map, List.length_take] at h2
    have h3 : v.size ≤ v.dat.length := hle
    omega
  have hdrop : v.dat.drop v.size = List.replicate (v.cap - v.size) none := by
    rw [List.eq_replicate_iff]
    exact ⟨by simp [Vec.cap], hdead⟩
  have hdat : v.dat = v.elems.map some ++ List.replicate (v.cap - v.size) none := by
    rw [hmap, ← hdrop, List.take_append_drop]
  show v = ⟨v.elems.map some ++ List.replicate (v.cap - v.size) none, v.elems.length⟩
  rw [← hdat, hlen]

theorem slot_eq_getElem? (d : List (Option α)) (j : Nat) :
    slot d j = d[j]?.getD none := List.getD_eq_getElem?_getD d j none

theorem slot_of_ge (d : List (Option α)) (j : Nat) (h : d.length ≤ j) :
    slot d j = none := by
  rw [slot_eq_getElem?, List.getElem?_eq_none h]; rfl

theorem slot_set (d : List (Option α)) (i j : Nat) (y : Option α) :
    slot (d.set i y) j = if i = j ∧ i < d.length then y else slot d j := by
  rw [slot_eq_getElem?, slot_eq_getElem?, List.getElem?_set]
  by_cases hij : i = j
  · subst hij
    by_cases hi : i < d.length
    · simp [hi]
    · simp [hi, List.getElem?_eq_none (by omega : d.length ≤ i)]
  · simp [hij]

theorem setAll_cons (p : Nat × Option α) (rest : List (Nat × Option α))
    (d : List (Option α)) :
    setAll (p :: rest) d = setAll rest (d.set p.1 p.2) := rfl

theorem setAll_length (pairs : List (Nat × Option α)) (d : List (Option α)) :
    (setAll pairs d).length = d.length := by
  induction pairs generalizing d with
  | nil => rfl
  | cons p rest ih => rw [setAll_cons, ih, List.length_set]

theorem assignLoop_ok (pairs : List (Nat × Option α)) (d : List (Option α))
    (b : Nat) (h : pairs.length ≤ b) :
    assignLoop pairs d b = .ok (setAll pairs d, b - pairs.length) := by
  induction pairs generalizing d b with
  | nil => simp [assignLoop, setAll]
  | cons p rest ih =>
    have hb : ¬ b = 0 := by simp only [List.length_cons] at h; omega
    rw [assignLoop, if_neg hb, setAll_cons,
      ih (d.set p.1 p.2) (b - 1) (by simp only [List.length_cons] at h; omega)]
    have hlen : b - 1 - rest.length = b - (p :: rest).length := by
      simp only [List.length_cons]; omega
    rw [hlen]

theorem assignLoop_error (pairs : List (Nat × Option α)) (d : List (Option α))
    (b : Nat) (h : b < pairs.length) :
    assignLoop pairs d b = .error (setAll (pairs.take b) d) := by
  induction pairs generalizing d b with
  | nil => simp at h
  | cons p rest ih =>
    by_cases hb : b = 0
    · subst hb; rw [assignLoop, if_pos rfl]; rfl
    · rw [assignLoop, if_neg hb,
        ih (d.set p.1 p.2) (b - 1) (by simp only [List.length_cons] at h; omega)]
      have : (p :: rest).take b = p :: rest.take (b - 1) := by
        obtain ⟨b', rfl⟩ := Nat.exists_eq_succ_of_ne_zero hb
        rfl
      rw [this, setAll_cons]

theorem setAll_slot_notmem (pairs : List (Nat × Option α)) (d : List (Option α))
    (j : Nat) (h : ∀ y, (j, y) ∉ pairs) : slot (setAll pairs d) j = slot d j := by
  induction pairs generalizing d with
  | nil => rfl
  | cons p rest ih =>
    rw [setAll_cons, ih _ (fun y hy => h y (List.mem_cons_of_mem _ hy)), slot_set]
    rw [if_neg]
    rintro ⟨rfl, -⟩
    exact h p.2 (List.mem_cons_self _ _)

theorem setAll_slot_mem (pairs : List (Nat × Option α)) (d : List (Option α))
    (j : Nat) (y : Option α) (hnd : (pairs.map Prod.fst).Nodup)
    (hmem : (j, y) ∈ pairs) (hj : j < d.length) :
    slot (setAll pairs d) j = y := by
  induction pairs generalizing d with
  | nil => simp at hmem
  | cons p rest ih =>
    simp only [List.map_cons, List.nodup_cons] at hnd
    rcases List.mem_cons.mp hmem with heq | hrest
    · rw [setAll_cons]
      have hp1 : p.1 = j := by rw [← heq]
      have hp2 : p.2 = y := by rw [← heq]
      have hnot : ∀ y', (j, y') ∉ rest := by
        intro y' hy'
        apply hnd.1
        rw [hp1]
        exact List.mem_map.mpr ⟨(j, y'), hy', rfl⟩
      rw [setAll_slot_notmem _ _ _ hnot, slot_set,
        if_pos ⟨hp1, by rw [hp1]; exact hj⟩]
      exact hp2
    · rw [setAll_cons]
      exact ih _ hnd.2 hrest (by rw [List.length_set]; exact hj)

/-- The container invariant, slot by slot: a slot is live exactly when its
index is below `size` (and in range). -/
theorem WF_iff_slot (d : List (Option α)) (n : Nat) :
    (Vec.mk d n).WF ↔
      n ≤ d.length ∧ ∀ j : Nat, (slot d j).isSome ↔ (j < n ∧ j < d.length) := by
  constructor
  · rintro ⟨hle, hlive, hdead⟩
    refine ⟨hle, fun j => ?_⟩
    by_cases hjl : j < d.length
    · rw [slot_eq_getElem?, List.getElem?_eq_getElem hjl]
      by_cases hjn : j < n
      · simp only [Option.getD_some]
        have hmem : d[j] ∈ d.take n := by
          have hlt : j < (d.take n).length := by
            simp only [List.length_take]; omega
          have : (d.take n)[j] = d[j] := List.getElem_take ..
          exact this ▸ List.getElem_mem hlt
        simpa [hjn, hjl] using hlive _ hmem
      · have hmem : d[j] ∈ d.drop n := by
          have hlt : j - n < (d.drop n).length := by
            simp only [List.length_drop]; omega
          have : (d.drop n)[j - n] = d[n + (j - n)] := List.getElem_drop ..
          have h2 : d[n + (j - n)] = d[j] := by congr 1; omega
          exact (h2 ▸ this) ▸ List.getElem_mem hlt
        simp [hdead _ hmem, hjn]
    · rw [slot_of_ge _ _ (by omega)]
      simp; omega
  · rintro ⟨hle, hs⟩
    refine ⟨hle, ?_, ?_⟩
    · intro o ho
      obtain ⟨i, hi, hget⟩ := List.mem_iff_getElem.mp ho
      have hil : i < n ∧ i < d.length := by
        simp only [List.length_take] at hi; omega
      have htq : (d.take n)[i]? = d[i]? := by
        rw [List.getElem?_take, if_pos hil.1]
      have hslot : slot d i = o := by
        rw [slot_eq_getElem?, ← htq, List.getElem?_eq_getElem hi, hget]
        rfl
      have := (hs i).mpr hil
      rwa [hslot] at this
    · intro o ho
      obtain ⟨i, hi, hget⟩ := List.mem_iff_getElem.mp ho
      have hil : n + i < d.length := by
        simp only [List.length_drop] at hi; omega
      have htq : (d.drop n)[i]? = d[n + i]? := by
        rw [List.getElem?_drop]
      have hslot : slot d (n + i) = o := by
        rw [slot_eq_getElem?, ← htq, List.getElem?_eq_getElem hi, hget]
        rfl
      have hno : ¬ (slot d (n + i)).isSome := by
        rw [hs (n + i)]; omega
      rw [hslot] at hno
      exact Option.not_isSome_iff_eq_none.mp hno

theorem ofL_dat_length (l : List α) (c : Nat) :
    (ofL l c).dat.length = l.length + c := by
  simp [ofL]

theorem slot_ofL (l : List α) (c j : Nat) : slot (ofL l c).dat j = l[j]? := by
  rw [slot_eq_getElem?, ofL_dat_getElem]
  by_cases h1 : j < l.length
  · rw [if_pos h1, List.getElem?_eq_getElem h1]; rfl
  · rw [if_neg h1, List.getElem?_eq_none (by omega)]
    by_cases h2 : j < l.length + c
    · rw [if_pos h2]; rfl
    · rw [if_neg h2]; rfl

theorem ext_slot (d d' : List (Option α)) (hlen : d.length = d'.length)
    (h : ∀ j, j < d.length → slot d j = slot d' j) : d = d' := by
  apply List.ext_getElem?
  intro j
  by_cases hj : j < d.length
  · rw [List.getElem?_eq_getElem hj, List.getElem?_eq_getElem (hlen ▸ hj)]
    have hs := h j hj
    rw [slot_eq_getElem?, slot_eq_getElem?, List.getElem?_eq_getElem hj,
      List.getElem?_eq_getElem (hlen ▸ hj)] at hs
    simpa using hs
  · rw [List.getElem?_eq_none (by omega), List.getElem?_eq_none (by omega)]

theorem backPairs_mem (d : List (Option α)) (p n j : Nat) (y : Option α) :
    (j, y) ∈ backPairs d p n ↔ (p + 1 ≤ j ∧ j < n ∧ y = slot d (j - 1)) := by
  simp only [backPairs, List.mem_map, List.mem_range]
  constructor
  · rintro ⟨k, hk, heq⟩
    have h1 : n - 1 - k = j := congrArg Prod.fst heq
    have h2 : d.getD (n - 2 - k) none = y := congrArg Prod.snd heq
    refine ⟨by omega, by omega, ?_⟩
    have e2 : j - 1 = n - 2 - k := by omega
    rw [e2, ← h2]; rfl
  · rintro ⟨h1, h2, rfl⟩
    refine ⟨n - 1 - j, by omega, ?_⟩
    have e1 : n - 1 - (n - 1 - j) = j := by omega
    have e2 : n - 2 - (n - 1 - j) = j - 1 := by omega
    rw [e1, e2]; rfl

theorem backPairs_nodup (d : List (Option α)) (p n : Nat) :
    ((backPairs d p n).map Prod.fst).Nodup := by
  simp only [backPairs, List.map_map]
  apply (List.nodup_range _).map_on
  intro k1 h1 k2 h2 he
  simp only [List.mem_range] at h1 h2
  simp only [Function.comp_apply] at he
  omega

theorem backPairs_length (d : List (Option α)) (p n : Nat) :
    (backPairs d p n).length = n - 1 - p := by
  simp [backPairs]

theorem erasePairs_mem (d : List (Option α)) (p n j : Nat) (y : Option α) :
    (j, y) ∈ erasePairs d p n ↔ (p ≤ j ∧ j + 1 < n ∧ y = slot d (j + 1)) := by
  simp only [erasePairs, List.mem_map, List.mem_range]
  constructor
  · rintro ⟨k, hk, heq⟩
    have h1 : p + k = j := congrArg Prod.fst heq
    have h2 : d.getD (p + 1 + k) none = y := congrArg Prod.snd heq
    refine ⟨by omega, by omega, ?_⟩
    have e2 : j + 1 = p + 1 + k := by omega
    rw [e2, ← h2]; rfl
  · rintro ⟨h1, h2, rfl⟩
    refine ⟨j - p, by omega, ?_⟩
    have e1 : p + (j - p) = j := by omega
    have e2 : p + 1 + (j - p) = j + 1 := by omega
    rw [e1, e2]; rfl

theorem erasePairs_nodup (d : List (Option α)) (p n : Nat) :
    ((erasePairs d p n).map Prod.fst).Nodup := by
  simp only [erasePairs, List.map_map]
  apply (List.nodup_range _).map_on
  intro k1 h1 k2 h2 he
  simp only [List.mem_range] at h1 h2
  simp only [Function.comp_apply] at he
  omega

theorem erasePairs_length (d : List (Option α)) (p n : Nat) :
    (erasePairs d p n).length = n - p - 1 := by
  simp [erasePairs]

theorem copyPairs_mem (src : List (Option α)) (m j : Nat) (y : Option α) :
    (j, y) ∈ copyPairs src m ↔ (j < m ∧ y = slot src j) := by
  simp only [copyPairs, List.mem_map, List.mem_range]
  constructor
  · rintro ⟨k, hk, heq⟩
    have h1 : k = j := congrArg Prod.fst heq
    have h2 : src.getD k none = y := congrArg Prod.snd heq
    subst h1
    exact ⟨hk, by rw [← h2]; rfl⟩
  · rintro ⟨h1, rfl⟩
    exact ⟨j, h1, rfl⟩

theorem copyPairs_nodup (src : List (Option α)) (m : Nat) :
    ((copyPairs src m).map Prod.fst).Nodup := by
  simp only [copyPairs, List.map_map]
  apply (List.nodup_range _).map_on
  intro k1 h1 k2 h2 he
  simp only [Function.comp_apply] at he
  exact he

theorem copyPairs_length (src : List (Option α)) (m : Nat) :
    (copyPairs src m).length = m := by
  simp [copyPairs]

theorem ofL_take (l : List α) (c : Nat) :
    (ofL l c).dat.take l.length = l.map some := by
  simp [ofL, List.take_append_of_le_length]

theorem insertList_getElem? (l : List α) (x : α) (p j : Nat) (hp : p ≤ l.length) :
    (l.take p ++ x :: l.drop p)[j]? =
      if j < p then l[j]? else if j = p then some x else l[j - 1]? := by
  rw [List.getElem?_append]
  have hlt : (l.take p).length = p := by simp [List.length_take]; omega
  rw [hlt]
  by_cases h1 : j < p
  · rw [if_pos h1, if_pos h1, List.getElem?_take, if_pos h1]
  · rw [if_neg h1, if_neg h1]
    by_cases h2 : j = p
    · subst h2
      simp
    · rw [if_neg h2]
      have h3 : j - p = (j - p - 1) + 1 := by omega
      rw [h3, List.getElem?_cons_succ, List.getElem?_drop]
      congr 1
      omega

theorem removeList_getElem? (l : List α) (p j : Nat) (hp : p < l.length) :
    (l.take p ++ l.drop (p + 1))[j]? = if j < p then l[j]? else l[j + 1]? := by
  rw [List.getElem?_append]
  have hlt : (l.take p).length = p := by simp [List.length_take]; omega
  rw [hlt]
  by_cases h1 : j < p
  · rw [if_pos h1, if_pos h1, List.getElem?_take, if_pos h1]
  · rw [if_neg h1, if_neg h1, List.getElem?_drop]
    congr 1
    omega

/-- In-place append: constructing `x` into slot `size` of a canonical state
with spare capacity yields the canonical state of `l ++ [x]`. -/
theorem set_size_dat (l : List α) (c : Nat) (x : α) (hc : 1 ≤ c) :
    (ofL l c).dat.set l.length (some x) = (ofL (l ++ [x]) (c - 1)).dat := by
  apply ext_slot
  · rw [List.length_set, ofL_dat_length, ofL_dat_length]
    simp
    omega
  · intro j hj
    rw [List.length_set, ofL_dat_length] at hj
    rw [slot_set, ofL_dat_length, slot_ofL l c j, slot_ofL (l ++ [x]) (c - 1) j]
    by_cases h1 : l.length = j
    · rw [if_pos ⟨h1, by omega⟩, ← h1, List.getElem?_append_right (le_refl _)]
      simp
    · rw [if_neg (by tauto)]
      by_cases h2 : j < l.length
      · rw [List.getElem?_append, if_pos h2]
      · rw [List.getElem?_eq_none (by omega),
          List.getElem?_eq_none (by simp; omega)]

/-- The combined effect of the in-place middle `Emplace` fast path on the
block: duplicate the last element into the tail slot, shift
`[position, size-1)` right by one, assign the new value at `position`. -/
theorem emplace_mid_dat (l : List α) (c : Nat) (x : α) (p : Nat)
    (hp : p < l.length) (hc : 1 ≤ c) :
    (setAll (backPairs (ofL l c).dat p l.length)
        ((ofL l c).dat.set l.length (slot (ofL l c).dat (l.length - 1)))).set p
        (some x)
      = (ofL (l.take p ++ x :: l.drop p) (c - 1)).dat := by
  have hlen1 : (l.take p ++ x :: l.drop p).length = l.length + 1 := by
    simp [List.length_take]
    omega
  apply ext_slot
  · rw [List.length_set, setAll_length, List.length_set, ofL_dat_length,
      ofL_dat_length, hlen1]
    omega
  · intro j hj
    rw [List.length_set, setAll_length, List.length_set, ofL_dat_length] at hj
    have hd1len : ((ofL l c).dat.set l.length
        (slot (ofL l c).dat (l.length - 1))).length = l.length + c := by
      rw [List.length_set, ofL_dat_length]
    rw [slot_set, setAll_length, hd1len,
      slot_ofL (l.take p ++ x :: l.drop p) (c - 1) j,
      insertList_getElem? l x p j (by omega)]
    by_cases h0 : p = j
    · subst h0
      rw [if_pos ⟨rfl, by omega⟩, if_neg (by omega), if_pos rfl]
    · rw [if_neg (by tauto)]
      by_cases h1 : p + 1 ≤ j ∧ j < l.length
      · -- a slot written by std::move_backward: value of old slot j-1
        rw [setAll_slot_mem _ _ j (slot (ofL l c).dat (j - 1))
            (backPairs_nodup _ _ _)
            ((backPairs_mem _ _ _ _ _).mpr ⟨h1.1, h1.2, rfl⟩)
            (by rw [hd1len]; omega),
          slot_ofL l c (j - 1), if_neg (by omega), if_neg (by omega)]
      · have hnot : ∀ y, (j, y) ∉ backPairs (ofL l c).dat p l.length := by
          intro y hy
          obtain ⟨ha, hb, -⟩ := (backPairs_mem _ _ _ _ _).mp hy
          exact h1 ⟨ha, hb⟩
        rw [setAll_slot_notmem _ _ _ hnot, slot_set, ofL_dat_length]
        by_cases h2 : l.length = j
        · -- the tail slot: duplicate of the old last element
          rw [if_pos ⟨h2, by omega⟩, slot_ofL l c (l.length - 1), ← h2,
            if_neg (by omega), if_neg (by omega)]
        · rw [if_neg (by tauto), slot_ofL l c j]
          by_cases h3 : j < p
          · rw [if_pos h3]
          · rw [if_neg h3, if_neg (by omega)]
            rw [List.getElem?_eq_none (by omega),
              List.getElem?_eq_none (by omega)]

/-- The combined effect of `Erase` on the block: shift `[position+1, size)`
left by one, destroy the last live slot. -/
theorem erase_dat (l : List α) (c : Nat) (p : Nat) (hp : p < l.length) :
    (setAll (erasePairs (ofL l c).dat p l.length) (ofL l c).dat).set
        (l.length - 1) none
      = (ofL (l.take p ++ l.drop (p + 1)) (c + 1)).dat := by
  have hlen1 : (l.take p ++ l.drop (p + 1)).length = l.length - 1 := by
    simp [List.length_take]
    omega
  apply ext_slot
  · rw [List.length_set, setAll_length, ofL_dat_length, ofL_dat_length, hlen1]
    omega
  · intro j hj
    rw [List.length_set, setAll_length, ofL_dat_length] at hj
    rw [slot_set, setAll_length, ofL_dat_length,
      slot_ofL (l.take p ++ l.drop (p + 1)) (c + 1) j,
      removeList_getElem? l p j hp]
    by_cases h0 : l.length - 1 = j
    · rw [if_pos ⟨h0, by omega⟩, ← h0, if_neg (by omega),
        List.getElem?_eq_none (by omega)]
    · rw [if_neg (by tauto)]
      by_cases h1 : p ≤ j ∧ j + 1 < l.length
      · rw [setAll_slot_mem _ _ j (slot (ofL l c).dat (j + 1))
            (erasePairs_nodup _ _ _)
            ((erasePairs_mem _ _ _ _ _).mpr ⟨h1.1, h1.2, rfl⟩)
            (by rw [ofL_dat_length]; omega),
          slot_ofL l c (j + 1), if_neg (by omega)]
      · have hnot : ∀ y, (j, y) ∉ erasePairs (ofL l c).dat p l.length := by
          intro y hy
          obtain ⟨ha, hb, -⟩ := (erasePairs_mem _ _ _ _ _).mp hy
          exact h1 ⟨ha, hb⟩
        rw [setAll_slot_notmem _ _ _ hnot, slot_ofL l c j]
        by_cases h3 : j < p
        · rw [if_pos h3]
        · rw [if_neg h3, List.getElem?_eq_none (by omega),
            List.getElem?_eq_none (by omega)]

theorem slot_append (a b : List (Option α)) (j : Nat) :
    slot (a ++ b) j = if j < a.length then slot a j else slot b (j - a.length) := by
  rw [slot_eq_getElem?, List.getElem?_append]
  split <;> rw [slot_eq_getElem?]

theorem slot_take (d : List (Option α)) (k j : Nat) :
    slot (d.take k) j = if j < k then slot d j else none := by
  rw [slot_eq_getElem?, List.getElem?_take]
  split
  · rw [slot_eq_getElem?]
  · rfl

theorem slot_drop (d : List (Option α)) (k j : Nat) :
    slot (d.drop k) j = slot d (k + j) := by
  rw [slot_eq_getElem?, List.getElem?_drop, slot_eq_getElem?]

theorem slot_replicate (k j : Nat) (y : Option α) :
    slot (List.replicate k y) j = if j < k then y else none := by
  rw [slot_eq_getElem?]
  by_cases h : j < k
  · rw [List.getElem?_replicate, if_pos h, if_pos h]
    rfl
  · rw [List.getElem?_eq_none (by simp; omega), if_neg h]
    rfl

theorem setAll_copyPairs_slot (src d : List (Option α)) (m j : Nat)
    (hm : m ≤ d.length) :
    slot (setAll (copyPairs src m) d) j = if j < m then slot src j else slot d j := by
  by_cases h : j < m
  · rw [setAll_slot_mem _ _ j (slot src j) (copyPairs_nodup _ _)
        ((copyPairs_mem _ _ _ _).mpr ⟨h, rfl⟩) (by omega), if_pos h]
  · rw [setAll_slot_notmem, if_neg h]
    intro y hy
    exact h ((copyPairs_mem _ _ _ _).mp hy).1

theorem assignLoop_ok_inv (pairs : List (Nat × Option α))
    (d d' : List (Option α)) (b b' : Nat)
    (h : assignLoop pairs d b = .ok (d', b')) :
    pairs.length ≤ b ∧ d' = setAll pairs d := by
  by_cases hb : pairs.length ≤ b
  · rw [assignLoop_ok _ _ _ hb] at h
    simp only [Except.ok.injEq, Prod.mk.injEq] at h
    exact ⟨hb, h.1.symm⟩
  · rw [assignLoop_error _ _ _ (by omega)] at h
    cases h

/-- `CopyVector` into a target whose size does not exceed the source's:
copy-assigned prefix, copy-constructed remainder, untouched tail. -/
theorem copyVector_grow_dat (l l₂ : List α) (c c₂ : Nat)
    (hn : l.length ≤ l₂.length) (hfit : l₂.length ≤ l.length + c) :
    (setAll (copyPairs (ofL l₂ c₂).dat l.length) (ofL l c).dat).take l.length
      ++ ((ofL l₂ c₂).dat.drop l.length).take (l₂.length - l.length)
      ++ (setAll (copyPairs (ofL l₂ c₂).dat l.length) (ofL l c).dat).drop l₂.length
      = (ofL l₂ (l.length + c - l₂.length)).dat := by
  have hm : l.length ≤ (ofL l c).dat.length := by rw [ofL_dat_length]; omega
  have hA : ((setAll (copyPairs (ofL l₂ c₂).dat l.length)
      (ofL l c).dat).take l.length).length = l.length := by
    simp only [List.length_take, setAll_length, ofL_dat_length]
    omega
  have hB : (((ofL l₂ c₂).dat.drop l.length).take
      (l₂.length - l.length)).length = l₂.length - l.length := by
    simp only [List.length_take, List.length_drop, ofL_dat_length]
    omega
  apply ext_slot
  · simp only [List.length_append, hA, hB, List.length_drop,
      setAll_length, ofL_dat_length]
    omega
  · intro j hj
    simp only [List.length_append, hA, hB, List.length_drop,
      setAll_length, ofL_dat_length] at hj
    rw [slot_ofL l₂ (l.length + c - l₂.length) j, slot_append,
      List.length_append, hA, hB]
    by_cases h1 : j < l.length
    · rw [if_pos (by omega), slot_append, hA, if_pos h1, slot_take, if_pos h1,
        setAll_copyPairs_slot _ _ _ _ hm, if_pos h1, slot_ofL]
    · by_cases h2 : j < l₂.length
      · rw [if_pos (by omega), slot_append, hA, if_neg h1, slot_take,
          if_pos (by omega), slot_drop]
        have e1 : l.length + (j - l.length) = j := by omega
        rw [e1, slot_ofL]
      · rw [if_neg (by omega), slot_drop, setAll_copyPairs_slot _ _ _ _ hm]
        have e2 : l₂.length + (j - (l.length + (l₂.length - l.length)))
            = j := by omega
        rw [e2, if_neg (by omega), slot_ofL,
          List.getElem?_eq_none (by omega), List.getElem?_eq_none (by omega)]

/-- `CopyVector` into a strictly longer target: copy-assigned prefix,
destroyed middle, untouched tail. -/
theorem copyVector_shrink_dat (l l₂ : List α) (c c₂ : Nat)
    (hn : l₂.length < l.length) :
    (setAll (copyPairs (ofL l₂ c₂).dat l₂.length) (ofL l c).dat).take l₂.length
      ++ List.replicate (l.length - l₂.length) none
      ++ (setAll (copyPairs (ofL l₂ c₂).dat l₂.length) (ofL l c).dat).drop l.length
      = (ofL l₂ (l.length + c - l₂.length)).dat := by
  have hm : l₂.length ≤ (ofL l c).dat.length := by rw [ofL_dat_length]; omega
  have hA : ((setAll (copyPairs (ofL l₂ c₂).dat l₂.length)
      (ofL l c).dat).take l₂.length).length = l₂.length := by
    simp only [List.length_take, setAll_length, ofL_dat_length]
    omega
  have hB : (List.replicate (l.length - l₂.length) (none : Option α)).length
      = l.length - l₂.length := List.length_replicate ..
  apply ext_slot
  · simp only [List.length_append, hA, hB, List.length_drop,
      setAll_length, ofL_dat_length]
    omega
  · intro j hj
    simp only [List.length_append, hA, hB, List.length_drop,
      setAll_length, ofL_dat_length] at hj
    rw [slot_ofL l₂ (l.length + c - l₂.length) j, slot_append,
      List.length_append, hA, hB]
    by_cases h1 : j < l₂.length
    · rw [if_pos (by omega), slot_append, hA, if_pos h1, slot_take, if_pos h1,
        setAll_copyPairs_slot _ _ _ _ hm, if_pos h1, slot_ofL]
    · by_cases h2 : j < l.length
      · rw [if_pos (by omega), slot_append, hA, if_neg h1, slot_replicate,
          if_pos (by omega), List.getElem?_eq_none (by omega)]
      · rw [if_neg (by omega), slot_drop, setAll_copyPairs_slot _ _ _ _ hm]
        have e2 : l.length + (j - (l₂.length + (l.length - l₂.length)))
            = j := by omega
        rw [e2, if_neg (by omega), slot_ofL,
          List.getElem?_eq_none (by omega), List.getElem?_eq_none (by omega)]

theorem slot_cons (y : Option α) (t : List (Option α)) (j : Nat) :
    slot (y :: t) j = if j = 0 then y else slot t (j - 1) := by
  cases j with
  | zero => rfl
  | succ j => rfl

/-- Reallocating `Emplace`: old prefix, the new element at slot `position`,
old suffix, fresh uninitialized tail. -/
theorem emplace_full_dat (l : List α) (x : α) (p k : Nat)
    (hp : p ≤ l.length) (hk : l.length < k) :
    (ofL l 0).dat.take p ++ some x :: (((ofL l 0).dat.drop p).take (l.length - p)
        ++ List.replicate (k - l.length - 1) none)
      = (ofL (l.take p ++ x :: l.drop p) (k - l.length - 1)).dat := by
  apply ext_slot
  · simp only [List.length_append, List.length_take, List.length_drop,
      List.length_cons, List.length_replicate, ofL_dat_length]
    omega
  · intro j hj
    simp only [List.length_append, List.length_take, List.length_drop,
      List.length_cons, List.length_replicate, ofL_dat_length] at hj
    rw [slot_ofL (l.take p ++ x :: l.drop p) (k - l.length - 1) j,
      insertList_getElem? l x p j hp]
    simp only [slot_append, slot_cons, slot_take, slot_drop, slot_replicate,
      slot_ofL, List.length_append, List.length_take, List.length_drop,
      List.length_map, List.length_cons, List.length_nil,
      List.length_replicate, ofL_dat_length]
    split_ifs <;>
      first
        | rfl
        | omega
        | (congr 1; omega)
        | exact List.getElem?_eq_none (by omega)
        | exact (List.getElem?_eq_none (by omega)).symm

/-- Reallocating `PushBack`: old values, the new element at slot `size`,
fresh uninitialized tail (the `position = size` case of the above). -/
theorem pushBack_full_dat (l : List α) (x : α) (k : Nat) (hk : l.length < k) :
    (ofL l 0).dat.take l.length ++ some x :: List.replicate (k - l.length - 1) none
      = (ofL (l ++ [x]) (k - l.length - 1)).dat := by
  have h := emplace_full_dat l x l.length k (le_refl _) hk
  simp only [List.take_length, List.drop_length, Nat.sub_self, List.take_zero,
    List.nil_append] at h
  exact h

/-- Shrinking `Resize`: kept prefix, destroyed middle, untouched dead tail. -/
theorem resize_shrink_dat (l : List α) (c k : Nat) (hk : k ≤ l.length) :
    (ofL l c).dat.take k ++ List.replicate (l.length - k) none
        ++ (ofL l c).dat.drop l.length
      = (ofL (l.take k) (l.length - k + c)).dat := by
  apply ext_slot
  · simp only [List.length_append, List.length_take, List.length_drop,
      List.length_replicate, ofL_dat_length]
    omega
  · intro j hj
    simp only [List.length_append, List.length_take, List.length_drop,
      List.length_replicate, ofL_dat_length] at hj
    rw [slot_ofL (l.take k) (l.length - k + c) j]
    simp only [slot_append, slot_take, slot_drop, slot_replicate, slot_ofL,
      List.length_append, List.length_take, List.length_drop,
      List.length_replicate, ofL_dat_length, List.getElem?_take]
    split_ifs <;>
      first
        | rfl
        | omega
        | (congr 1; omega)
        | exact List.getElem?_eq_none (by omega)
        | exact (List.getElem?_eq_none (by omega)).symm

/-- Growing `Resize` within capacity after `Reserve`: kept values, freshly
value-constructed middle, untouched dead tail. -/
theorem resize_grow_dat [Inhabited α] (l : List α) (c k : Nat)
    (hk1 : l.length ≤ k) (hk2 : k ≤ l.length + c) :
    (ofL l c).dat.take l.length ++ List.replicate (k - l.length) (some default)
        ++ (ofL l c).dat.drop k
      = (ofL (l ++ List.replicate (k - l.length) default) (l.length + c - k)).dat := by
  apply ext_slot
  · simp only [List.length_append, List.length_take, List.length_drop,
      List.length_replicate, ofL_dat_length]
    omega
  · intro j hj
    simp only [List.length_append, List.length_take, List.length_drop,
      List.length_replicate, ofL_dat_length] at hj
    rw [slot_ofL (l ++ List.replicate (k - l.length) default)
        (l.length + c - k) j]
    simp only [slot_append, slot_take, slot_drop, slot_replicate, slot_ofL,
      List.length_append, List.length_take, List.length_drop,
      List.length_replicate, ofL_dat_length, List.getElem?_append,
      List.getElem?_replicate]
    split_ifs <;>
      first
        | rfl
        | omega
        | (congr 1; omega)
        | exact List.getElem?_eq_none (by omega)
        | exact (List.getElem?_eq_none (by omega)).symm


/-- A completed or partial assignment pass whose targets are live slots and
whose values are constructed elements preserves the invariant. -/
theorem setAll_WF (pairs : List (Nat × Option α)) (d : List (Option α))
    (n : Nat) (hWF : (Vec.mk d n).WF)
    (hp : ∀ q ∈ pairs, q.1 < n ∧ q.2.isSome) :
    (Vec.mk (setAll pairs d) n).WF := by
  induction pairs generalizing d with
  | nil => exact hWF
  | cons q rest ih =>
    rw [setAll_cons]
    apply ih
    · obtain ⟨hq1, hq2⟩ := hp q (List.mem_cons_self _ _)
      rw [WF_iff_slot] at hWF ⊢
      rw [List.length_set]
      refine ⟨hWF.1, fun j => ?_⟩
      rw [slot_set]
      by_cases h : q.1 = j ∧ q.1 < d.length
      · rw [if_pos h]
        have := hWF.2 j
        constructor
        · intro
          exact ⟨by omega, by omega⟩
        · intro
          exact hq2
      · rw [if_neg h]
        exact hWF.2 j
    · intro q' hq'
      exact hp q' (List.mem_cons_of_mem _ hq')

theorem mk_eq_ofL (l : List α) (c : Nat) (d : List (Option α)) (n : Nat)
    (hd : d = (ofL l c).dat) (hn : n = l.length) : Vec.mk d n = ofL l c := by
  subst hd
  subst hn
  rfl

/-- The source's growth target `size == 0 ? 1 : size * 2` is `max(1, 2*size)`. -/
theorem newCap_eq_max (n : Nat) : (if n = 0 then 1 else n * 2) = max 1 (2 * n) := by
  by_cases h : n = 0
  · subst h
    simp
  · rw [if_neg h]
    omega

theorem newCap_gt (n : Nat) : n < if n = 0 then 1 else n * 2 := by
  by_cases h : n = 0
  · subst h
    simp
  · rw [if_neg h]
    omega

theorem reserve_ofL_noop (l : List α) (c k : Nat) (nt : Bool) (b : Nat)
    (hk : k ≤ l.length + c) :
    (ofL l c).reserve k nt b = .ok (ofL l c, b) := by
  simp only [Vec.reserve, ofL_cap]
  rw [if_pos (by omega)]

theorem reserve_ofL_grow_nt (l : List α) (c k : Nat) (b : Nat)
    (hk : l.length + c < k) :
    (ofL l c).reserve k true b = .ok (ofL l (k - l.length), b) := by
  simp only [Vec.reserve, ofL_cap, ofL_size]
  rw [if_neg (by omega), if_pos trivial, ofL_take]
  rfl

theorem reserve_ofL_grow_copy (l : List α) (c k : Nat) (b : Nat)
    (hk : l.length + c < k) (hb : l.length ≤ b) :
    (ofL l c).reserve k false b = .ok (ofL l (k - l.length), b - l.length) := by
  simp only [Vec.reserve, ofL_cap, ofL_size]
  rw [if_neg (by omega), if_neg (by simp), if_pos hb, ofL_take]
  rfl

theorem reserve_ofL_copy_throw (l : List α) (c k : Nat) (b : Nat)
    (hk : l.length + c < k) (hb : b < l.length) :
    (ofL l c).reserve k false b = .error (ofL l c) := by
  simp only [Vec.reserve, ofL_cap, ofL_size]
  rw [if_neg (by omega), if_neg (by simp), if_neg (by omega)]

theorem resize_ofL_shrink [Inhabited α] (l : List α) (c k : Nat) (nt : Bool)
    (b : Nat) (hk : k ≤ l.length) :
    (ofL l c).resize k nt b = .ok (ofL (l.take k) (l.length - k + c)) := by
  simp only [Vec.resize]
  rw [reserve_ofL_noop l c k nt b (by omega)]
  dsimp only
  simp only [ofL_size]
  rw [if_neg (by omega), resize_shrink_dat l c k hk,
    show (⟨(ofL (l.take k) (l.length - k + c)).dat, k⟩ : Vec α)
        = ofL (l.take k) (l.length - k + c) from
      mk_eq_ofL _ _ _ _ rfl (by rw [List.length_take]; omega)]

theorem resize_ofL_grow_incap [Inhabited α] (l : List α) (c k : Nat)
    (nt : Bool) (b : Nat) (hk1 : l.length < k) (hk2 : k ≤ l.length + c)
    (hb : k - l.length ≤ b) :
    (ofL l c).resize k nt b
      = .ok (ofL (l ++ List.replicate (k - l.length) default)
          (l.length + c - k)) := by
  simp only [Vec.resize]
  rw [reserve_ofL_noop l c k nt b hk2]
  dsimp only
  simp only [ofL_size]
  rw [if_pos (by omega), if_pos hb, resize_grow_dat l c k (by omega) hk2,
    show (⟨(ofL (l ++ List.replicate (k - l.length) default)
            (l.length + c - k)).dat, k⟩ : Vec α)
        = ofL (l ++ List.replicate (k - l.length) default) (l.length + c - k)
      from mk_eq_ofL _ _ _ _ rfl (by simp; omega)]

theorem resize_realloc_aux [Inhabited α] (l : List α) (c k : Nat)
    (nt : Bool) (b : Nat) (hk : l.length + c < k)
    (hbnt : nt = true → k - l.length ≤ b)
    (hbc : nt = false → k ≤ b) :
    (ofL l c).resize k nt b
      = .ok (ofL (l ++ List.replicate (k - l.length) default) 0) := by
  have hdat : ∀ b1 : Nat, k - l.length ≤ b1 →
      (if k > (ofL l (k - l.length)).size then
        if k - (ofL l (k - l.length)).size ≤ b1 then
          (.ok ⟨(ofL l (k - l.length)).dat.take (ofL l (k - l.length)).size
            ++ List.replicate (k - (ofL l (k - l.length)).size) (some default)
            ++ (ofL l (k - l.length)).dat.drop k, k⟩ : Except (Vec α) (Vec α))
        else .error (ofL l (k - l.length))
      else .ok ⟨(ofL l (k - l.length)).dat.take k
        ++ List.replicate ((ofL l (k - l.length)).size - k) none
        ++ (ofL l (k - l.length)).dat.drop (ofL l (k - l.length)).size, k⟩)
      = .ok (ofL (l ++ List.replicate (k - l.length) default) 0) := by
    intro b1 hb1
    simp only [ofL_size]
    rw [if_pos (by omega), if_pos hb1,
      resize_grow_dat l (k - l.length) k (by omega) (by omega),
      show l.length + (k - l.length) - k = 0 by omega,
      show (⟨(ofL (l ++ List.replicate (k - l.length) default) 0).dat, k⟩ : Vec α)
          = ofL (l ++ List.replicate (k - l.length) default) 0
        from mk_eq_ofL _ _ _ _ rfl (by simp; omega)]
  simp only [Vec.resize]
  cases nt with
  | true =>
    rw [reserve_ofL_grow_nt l c k b hk]
    exact hdat b (hbnt rfl)
  | false =>
    have hb := hbc rfl
    rw [reserve_ofL_grow_copy l c k b hk (by omega)]
    exact hdat (b - l.length) (by omega)

theorem resize_ofL_construct_throw_incap [Inhabited α] (l : List α)
    (c k : Nat) (nt : Bool) (b : Nat) (hk1 : l.length < k)
    (hk2 : k ≤ l.length + c) (hb : b < k - l.length) :
    (ofL l c).resize k nt b = .error (ofL l c) := by
  simp only [Vec.resize]
  rw [reserve_ofL_noop l c k nt b hk2]
  dsimp only
  simp only [ofL_size]
  rw [if_pos (by omega), if_neg (by omega)]

theorem resize_ofL_construct_throw_realloc_nt [Inhabited α] (l : List α)
    (c k : Nat) (b : Nat) (hk : l.length + c < k) (hb : b < k - l.length) :
    (ofL l c).resize k true b = .error (ofL l (k - l.length)) := by
  simp only [Vec.resize]
  rw [reserve_ofL_grow_nt l c k b hk]
  dsimp only
  simp only [ofL_size]
  rw [if_pos (by omega), if_neg (by omega)]

theorem resize_ofL_construct_throw_realloc_copy [Inhabited α] (l : List α)
    (c k : Nat) (b : Nat) (hk : l.length + c < k) (hb1 : l.length ≤ b)
    (hb2 : b - l.length < k - l.length) :
    (ofL l c).resize k false b = .error (ofL l (k - l.length)) := by
  simp only [Vec.resize]
  rw [reserve_ofL_grow_copy l c k b hk hb1]
  dsimp only
  simp only [ofL_size]
  rw [if_pos (by omega), if_neg (by omega)]

theorem resize_ofL_reserve_throw [Inhabited α] (l : List α) (c k : Nat)
    (b : Nat) (hk : l.length + c < k) (hb : b < l.length) :
    (ofL l c).resize k false b = .error (ofL l c) := by
  simp only [Vec.resize]
  rw [reserve_ofL_copy_throw l c k b hk hb]

theorem pushBack_ofL_spare (l : List α) (c : Nat) (x : α) (nt : Bool) (b : Nat)
    (hc : 1 ≤ c) (hb : 1 ≤ b) :
    (ofL l c).pushBack x nt b = .ok (ofL (l ++ [x]) (c - 1)) := by
  simp only [Vec.pushBack, ofL_size, ofL_cap]
  rw [if_neg (by omega), if_neg (by omega), set_size_dat l c x hc,
    show (⟨(ofL (l ++ [x]) (c - 1)).dat, l.length + 1⟩ : Vec α)
        = ofL (l ++ [x]) (c - 1) from mk_eq_ofL _ _ _ _ rfl (by simp)]

theorem pushBack_ofL_full (l : List α) (x : α) (nt : Bool) (b : Nat)
    (hb : 1 ≤ b) (hok : nt = true ∨ l.length ≤ b - 1) :
    (ofL l 0).pushBack x nt b
      = .ok (ofL (l ++ [x])
          ((if l.length = 0 then 1 else l.length * 2) - l.length - 1)) := by
  simp only [Vec.pushBack, ofL_size, ofL_cap]
  rw [if_pos (by omega), if_neg (by omega), if_pos hok,
    pushBack_full_dat l x _ (newCap_gt l.length),
    show (⟨(ofL (l ++ [x])
          ((if l.length = 0 then 1 else l.length * 2) - l.length - 1)).dat,
        l.length + 1⟩ : Vec α)
        = ofL (l ++ [x]) ((if l.length = 0 then 1 else l.length * 2) - l.length - 1)
      from mk_eq_ofL _ _ _ _ rfl (by simp)]

theorem pushBack_ofL_ctor_throw (l : List α) (c : Nat) (x : α) (nt : Bool) :
    (ofL l c).pushBack x nt 0 = .error (ofL l c) := by
  simp only [Vec.pushBack, ofL_size, ofL_cap]
  by_cases hc : l.length + c ≤ l.length
  · rw [if_pos (by omega), if_pos trivial]
  · rw [if_neg (by omega), if_pos trivial]

theorem pushBack_ofL_reloc_throw (l : List α) (x : α) (b : Nat)
    (hb1 : 1 ≤ b) (hb2 : b - 1 < l.length) :
    (ofL l 0).pushBack x false b = .error (ofL l 0) := by
  simp only [Vec.pushBack, ofL_size, ofL_cap]
  rw [if_pos (by omega), if_neg (by omega),
    if_neg (by simp only [Bool.false_eq_true, false_or]; omega)]

theorem emplace_ofL_end (l : List α) (c : Nat) (x : α) (nt : Bool) (b : Nat)
    (hc : 1 ≤ c) (hb : 1 ≤ b) :
    (ofL l c).emplace l.length x nt b
      = .ok (ofL (l ++ [x]) (c - 1), l.length) := by
  simp only [Vec.emplace, ofL_size, ofL_cap]
  rw [if_pos (by omega), if_pos trivial, if_neg (by omega), set_size_dat l c x hc,
    show (⟨(ofL (l ++ [x]) (c - 1)).dat, l.length + 1⟩ : Vec α)
        = ofL (l ++ [x]) (c - 1) from mk_eq_ofL _ _ _ _ rfl (by simp)]

theorem emplace_ofL_mid (l : List α) (c : Nat) (x : α) (p : Nat) (nt : Bool)
    (b : Nat) (hp : p < l.length) (hc : 1 ≤ c) (hb : l.length - p + 2 ≤ b) :
    (ofL l c).emplace p x nt b
      = .ok (ofL (l.take p ++ x :: l.drop p) (c - 1), p) := by
  simp only [Vec.emplace, ofL_size, ofL_cap]
  rw [if_pos (by omega), if_neg (by omega), if_neg (by omega),
    if_neg (by omega), assignLoop_ok _ _ _ (by rw [backPairs_length]; omega)]
  dsimp only
  rw [if_neg (by rw [backPairs_length]; omega), emplace_mid_dat l c x p hp hc,
    show (⟨(ofL (l.take p ++ x :: l.drop p) (c - 1)).dat, l.length + 1⟩ : Vec α)
        = ofL (l.take p ++ x :: l.drop p) (c - 1) from
      mk_eq_ofL _ _ _ _ rfl (by simp [List.length_take]; omega)]

theorem emplace_ofL_full (l : List α) (x : α) (p : Nat) (nt : Bool) (b : Nat)
    (hp : p ≤ l.length) (hb : 1 ≤ b) (hok : nt = true ∨ l.length ≤ b - 1) :
    (ofL l 0).emplace p x nt b
      = .ok (ofL (l.take p ++ x :: l.drop p)
          ((if l.length = 0 then 1 else l.length * 2) - l.length - 1), p) := by
  simp only [Vec.emplace, ofL_size, ofL_cap]
  rw [if_neg (by omega), if_neg (by omega), if_pos hok,
    emplace_full_dat l x p _ hp (newCap_gt l.length),
    show (⟨(ofL (l.take p ++ x :: l.drop p)
          ((if l.length = 0 then 1 else l.length * 2) - l.length - 1)).dat,
        l.length + 1⟩ : Vec α)
        = ofL (l.take p ++ x :: l.drop p)
            ((if l.length = 0 then 1 else l.length * 2) - l.length - 1)
      from mk_eq_ofL _ _ _ _ rfl (by simp [List.length_take]; omega)]

theorem emplace_ofL_end_throw (l : List α) (c : Nat) (x : α) (nt : Bool)
    (hc : 1 ≤ c) :
    (ofL l c).emplace l.length x nt 0 = .error (ofL l c) := by
  simp only [Vec.emplace, ofL_size, ofL_cap]
  rw [if_pos (by omega), if_pos trivial, if_pos trivial]

theorem emplace_ofL_full_throw (l : List α) (x : α) (p : Nat) (nt : Bool) :
    (ofL l 0).emplace p x nt 0 = .error (ofL l 0) := by
  simp only [Vec.emplace, ofL_size, ofL_cap]
  rw [if_neg (by omega), if_pos trivial]

theorem emplace_ofL_full_reloc_throw (l : List α) (x : α) (p : Nat) (b : Nat)
    (hb1 : 1 ≤ b) (hb2 : b - 1 < l.length) :
    (ofL l 0).emplace p x false b = .error (ofL l 0) := by
  simp only [Vec.emplace, ofL_size, ofL_cap]
  rw [if_neg (by omega), if_neg (by omega),
    if_neg (by simp only [Bool.false_eq_true, false_or]; omega)]

theorem emplace_ofL_mid_throw (l : List α) (c : Nat) (x : α) (p : Nat)
    (nt : Bool) (b : Nat) (hp : p < l.length) (hc : 1 ≤ c)
    (hb : b < l.length - p + 2) :
    ∃ d, (ofL l c).emplace p x nt b = .error (Vec.mk d l.length) := by
  simp only [Vec.emplace, ofL_size, ofL_cap]
  rw [if_pos (by omega), if_neg (by omega)]
  by_cases hb0 : b = 0
  · rw [if_pos hb0]
    exact ⟨(ofL l c).dat, rfl⟩
  · rw [if_neg hb0]
    by_cases hb1 : b - 1 = 0
    · rw [if_pos hb1]
      exact ⟨(ofL l c).dat, rfl⟩
    · rw [if_neg hb1]
      by_cases hb2 : b - 2 < l.length - 1 - p
      · rw [assignLoop_error _ _ _ (by rw [backPairs_length]; omega)]
        exact ⟨_, rfl⟩
      · rw [assignLoop_ok _ _ _ (by rw [backPairs_length]; omega)]
        dsimp only
        rw [if_pos (by rw [backPairs_length]; omega)]
        exact ⟨_, rfl⟩

theorem erase_ofL (l : List α) (c : Nat) (p : Nat) (b : Nat)
    (hp : p < l.length) (hb : l.length - p - 1 ≤ b) :
    (ofL l c).erase p b
      = .ok (ofL (l.take p ++ l.drop (p + 1)) (c + 1), p) := by
  simp only [Vec.erase, ofL_size]
  rw [assignLoop_ok _ _ _ (by rw [erasePairs_length]; omega)]
  dsimp only
  rw [erase_dat l c p hp,
    show (⟨(ofL (l.take p ++ l.drop (p + 1)) (c + 1)).dat, l.length - 1⟩ : Vec α)
        = ofL (l.take p ++ l.drop (p + 1)) (c + 1) from
      mk_eq_ofL _ _ _ _ rfl (by simp [List.length_take]; omega)]

theorem erase_ofL_throw (l : List α) (c : Nat) (p : Nat) (b : Nat)
    (hb : b < l.length - p - 1) :
    (ofL l c).erase p b
      = .error ⟨setAll ((erasePairs (ofL l c).dat p l.length).take b)
          (ofL l c).dat, l.length⟩ := by
  simp only [Vec.erase, ofL_size]
  rw [assignLoop_error _ _ _ (by rw [erasePairs_length]; omega)]

theorem copyVector_ofL_le (l l₂ : List α) (c c₂ : Nat) (b : Nat)
    (hn : l.length ≤ l₂.length) (hfit : l₂.length ≤ l.length + c)
    (hb : l₂.length ≤ b) :
    (ofL l c).copyVector (ofL l₂ c₂) b
      = .ok (ofL l₂ (l.length + c - l₂.length)) := by
  simp only [Vec.copyVector, ofL_size]
  rw [min_eq_left hn, assignLoop_ok _ _ _ (by rw [copyPairs_length]; omega)]
  dsimp only
  rw [if_pos hn, if_pos (by rw [copyPairs_length]; omega),
    copyVector_grow_dat l l₂ c c₂ hn hfit]
  rfl

theorem copyVector_ofL_gt (l l₂ : List α) (c c₂ : Nat) (b : Nat)
    (hn : l₂.length < l.length) (hb : l₂.length ≤ b) :
    (ofL l c).copyVector (ofL l₂ c₂) b
      = .ok (ofL l₂ (l.length + c - l₂.length)) := by
  simp only [Vec.copyVector, ofL_size]
  rw [min_eq_right (by omega), assignLoop_ok _ _ _ (by rw [copyPairs_length]; omega)]
  dsimp only
  rw [if_neg (by omega), copyVector_shrink_dat l l₂ c c₂ hn]
  rfl

theorem copyVector_ofL_assign_throw (l l₂ : List α) (c c₂ : Nat) (b : Nat)
    (hb : b < min l.length l₂.length) :
    (ofL l c).copyVector (ofL l₂ c₂) b
      = .error ⟨setAll ((copyPairs (ofL l₂ c₂).dat
          (min l.length l₂.length)).take b) (ofL l c).dat, l.length⟩ := by
  simp only [Vec.copyVector, ofL_size]
  rw [assignLoop_error _ _ _ (by rw [copyPairs_length]; omega)]

theorem copyVector_ofL_construct_throw (l l₂ : List α) (c c₂ : Nat) (b : Nat)
    (hn : l.length ≤ l₂.length) (hb1 : l.length ≤ b) (hb2 : b < l₂.length) :
    (ofL l c).copyVector (ofL l₂ c₂) b
      = .error ⟨setAll (copyPairs (ofL l₂ c₂).dat l.length) (ofL l c).dat,
          l.length⟩ := by
  simp only [Vec.copyVector, ofL_size]
  rw [min_eq_left hn, assignLoop_ok _ _ _ (by rw [copyPairs_length]; omega)]
  dsimp only
  rw [if_pos hn, if_neg (by rw [copyPairs_length]; omega)]

theorem copyCtor_ofL (l : List α) (c : Nat) (b : Nat) (hb : l.length ≤ b) :
    (ofL l c).copyCtor b = some (ofL l 0) := by
  simp only [Vec.copyCtor, ofL_size]
  rw [if_pos hb, ofL_take]
  simp [ofL]

theorem copyCtor_ofL_throw (l : List α) (c : Nat) (b : Nat)
    (hb : b < l.length) : (ofL l c).copyCtor b = none := by
  simp only [Vec.copyCtor, ofL_size]
  rw [if_neg (by omega)]

theorem copyAssign_ofL_fit (l l₂ : List α) (c c₂ : Nat) (b : Nat)
    (hfit : l₂.length ≤ l.length + c) (hb : l₂.length ≤ b) :
    (ofL l c).copyAssign (ofL l₂ c₂) b
      = .ok (ofL l₂ (l.length + c - l₂.length)) := by
  simp only [Vec.copyAssign, ofL_size, ofL_cap]
  rw [if_pos (by omega)]
  by_cases hn : l.length ≤ l₂.length
  · exact copyVector_ofL_le l l₂ c c₂ b hn hfit hb
  · exact copyVector_ofL_gt l l₂ c c₂ b (by omega) hb

theorem copyAssign_ofL_realloc (l l₂ : List α) (c c₂ : Nat) (b : Nat)
    (hgt : l.length + c < l₂.length) (hb : l₂.length ≤ b) :
    (ofL l c).copyAssign (ofL l₂ c₂) b = .ok (ofL l₂ 0) := by
  simp only [Vec.copyAssign, ofL_size, ofL_cap]
  rw [if_neg (by omega), copyCtor_ofL l₂ c₂ b hb]

theorem copyAssign_ofL_realloc_throw (l l₂ : List α) (c c₂ : Nat) (b : Nat)
    (hgt : l.length + c < l₂.length) (hb : b < l₂.length) :
    (ofL l c).copyAssign (ofL l₂ c₂) b = .error (ofL l c) := by
  simp only [Vec.copyAssign, ofL_size, ofL_cap]
  rw [if_neg (by omega), copyCtor_ofL_throw l₂ c₂ b hb]

theorem popBack_dat (l : List α) (c : Nat) (h : 1 ≤ l.length) :
    (ofL l c).dat.set (l.length - 1) none
      = (ofL (l.take (l.length - 1)) (c + 1)).dat := by
  apply ext_slot
  · simp only [List.length_set, ofL_dat_length, List.length_take]
    omega
  · intro j hj
    simp only [List.length_set, ofL_dat_length] at hj
    rw [slot_set, ofL_dat_length, slot_ofL (l.take (l.length - 1)) (c + 1) j]
    simp only [slot_ofL, List.getElem?_take]
    split_ifs <;>
      first
        | rfl
        | omega
        | (congr 1; omega)
        | exact List.getElem?_eq_none (by omega)
        | exact (List.getElem?_eq_none (by omega)).symm

theorem popBack_ofL (l : List α) (c : Nat) (h : l ≠ []) :
    (ofL l c).popBack = ofL (l.take (l.length - 1)) (c + 1) := by
  have hlen : 1 ≤ l.length := List.length_pos.mpr h
  simp only [Vec.popBack, ofL_size]
  rw [if_pos (by omega), popBack_dat l c hlen,
    show (⟨(ofL (l.take (l.length - 1)) (c + 1)).dat, l.length - 1⟩ : Vec α)
        = ofL (l.take (l.length - 1)) (c + 1) from
      mk_eq_ofL _ _ _ _ rfl (by rw [List.length_take]; omega)]

theorem popBack_ofL_empty (c : Nat) :
    (ofL ([] : List α) c).popBack = ofL ([] : List α) c := by
  simp [Vec.popBack, ofL_size]

theorem mkVec_eq_ofL (α : Type) [Inhabited α] (n : Nat) :
    mkVec α n = ofL (List.replicate n default) 0 := by
  simp [mkVec, ofL]

theorem mk_ofL_dat_WF (l : List α) (c : Nat) :
    (Vec.mk (ofL l c).dat l.length).WF := ofL_WF l c

theorem reserve_stateWF (l : List α) (c k : Nat) (nt : Bool) (b : Nat) :
    stateWF2 ((ofL l c).reserve k nt b) := by
  by_cases hk : k ≤ l.length + c
  · rw [reserve_ofL_noop l c k nt b hk]
    exact ofL_WF l c
  · cases nt with
    | true =>
      rw [reserve_ofL_grow_nt l c k b (by omega)]
      exact ofL_WF _ _
    | false =>
      by_cases hb : l.length ≤ b
      · rw [reserve_ofL_grow_copy l c k b (by omega) hb]
        exact ofL_WF _ _
      · rw [reserve_ofL_copy_throw l c k b (by omega) (by omega)]
        exact ofL_WF _ _

theorem resize_stateWF [Inhabited α] (l : List α) (c k : Nat) (nt : Bool)
    (b : Nat) : stateWF ((ofL l c).resize k nt b) := by
  by_cases hk1 : k ≤ l.length
  · rw [resize_ofL_shrink l c k nt b hk1]
    exact ofL_WF _ _
  · by_cases hk2 : k ≤ l.length + c
    · by_cases hb : k - l.length ≤ b
      · rw [resize_ofL_grow_incap l c k nt b (by omega) hk2 hb]
        exact ofL_WF _ _
      · rw [resize_ofL_construct_throw_incap l c k nt b (by omega) hk2 (by omega)]
        exact ofL_WF _ _
    · cases nt with
      | true =>
        by_cases hb : k - l.length ≤ b
        · rw [resize_realloc_aux l c k true b (by omega) (fun _ => hb)
            (by intro h; cases h)]
          exact ofL_WF _ _
        · rw [resize_ofL_construct_throw_realloc_nt l c k b (by omega) (by omega)]
          exact ofL_WF _ _
      | false =>
        by_cases hb1 : l.length ≤ b
        · by_cases hb2 : k ≤ b
          · rw [resize_realloc_aux l c k false b (by omega)
              (by intro h; cases h) (fun _ => hb2)]
            exact ofL_WF _ _
          · rw [resize_ofL_construct_throw_realloc_copy l c k b (by omega) hb1
              (by omega)]
            exact ofL_WF _ _
        · rw [resize_ofL_reserve_throw l c k b (by omega) (by omega)]
          exact ofL_WF _ _

theorem pushBack_stateWF (l : List α) (c : Nat) (x : α) (nt : Bool) (b : Nat) :
    stateWF ((ofL l c).pushBack x nt b) := by
  by_cases hb0 : b = 0
  · subst hb0
    rw [pushBack_ofL_ctor_throw]
    exact ofL_WF _ _
  · by_cases hc : c = 0
    · subst hc
      by_cases hok : nt = true ∨ l.length ≤ b - 1
      · rw [pushBack_ofL_full l x nt b (by omega) hok]
        exact ofL_WF _ _
      · cases nt with
        | true => exact absurd (Or.inl rfl) hok
        | false =>
          rw [pushBack_ofL_reloc_throw l x b (by omega) (by omega)]
          exact ofL_WF _ _
    · rw [pushBack_ofL_spare l c x nt b (by omega) (by omega)]
      exact ofL_WF _ _

theorem emplace_ok_WF (l : List α) (c p : Nat) (x : α) (nt : Bool) (b : Nat)
    (hp : p ≤ l.length) :
    ∀ w i, (ofL l c).emplace p x nt b = .ok (w, i) → w.WF := by
  intro w i h
  by_cases hc : c = 0
  · subst hc
    by_cases hb0 : b = 0
    · subst hb0
      rw [emplace_ofL_full_throw] at h
      cases h
    · by_cases hok : nt = true ∨ l.length ≤ b - 1
      · rw [emplace_ofL_full l x p nt b hp (by omega) hok] at h
        cases h
        exact ofL_WF _ _
      · cases nt with
        | true => exact absurd (Or.inl rfl) hok
        | false =>
          rw [emplace_ofL_full_reloc_throw l x p b (by omega) (by omega)] at h
          cases h
  · by_cases hpn : p = l.length
    · subst hpn
      by_cases hb0 : b = 0
      · subst hb0
        rw [emplace_ofL_end_throw l c x nt (by omega)] at h
        cases h
      · rw [emplace_ofL_end l c x nt b (by omega) (by omega)] at h
        cases h
        exact ofL_WF _ _
    · by_cases hb : l.length - p + 2 ≤ b
      · rw [emplace_ofL_mid l c x p nt b (by omega) (by omega) hb] at h
        cases h
        exact ofL_WF _ _
      · obtain ⟨d, hd⟩ := emplace_ofL_mid_throw l c x p nt b (by omega)
          (by omega) (by omega)
        rw [hd] at h
        cases h

theorem emplace_safe_stateWF (l : List α) (c p : Nat) (x : α) (nt : Bool)
    (b : Nat) (hp : p ≤ l.length) (hsafe : p = l.length ∨ c = 0) :
    stateWF2 ((ofL l c).emplace p x nt b) := by
  by_cases hc : c = 0
  · subst hc
    by_cases hb0 : b = 0
    · subst hb0
      rw [emplace_ofL_full_throw]
      exact ofL_WF _ _
    · by_cases hok : nt = true ∨ l.length ≤ b - 1
      · rw [emplace_ofL_full l x p nt b hp (by omega) hok]
        exact ofL_WF _ _
      · cases nt with
        | true => exact absurd (Or.inl rfl) hok
        | false =>
          rw [emplace_ofL_full_reloc_throw l x p b (by omega) (by omega)]
          exact ofL_WF _ _
  · have hpn : p = l.length := by tauto
    subst hpn
    by_cases hb0 : b = 0
    · subst hb0
      rw [emplace_ofL_end_throw l c x nt (by omega)]
      exact ofL_WF _ _
    · rw [emplace_ofL_end l c x nt b (by omega) (by omega)]
      exact ofL_WF _ _

theorem erase_stateWF (l : List α) (c p : Nat) (b : Nat) (hp : p < l.length) :
    stateWF2 ((ofL l c).erase p b) := by
  by_cases hb : l.length - p - 1 ≤ b
  · rw [erase_ofL l c p b hp hb]
    exact ofL_WF _ _
  · rw [erase_ofL_throw l c p b (by omega)]
    apply setAll_WF _ _ _ (mk_ofL_dat_WF l c)
    intro q hq
    obtain ⟨h1, h2, h3⟩ :=
      (erasePairs_mem _ _ _ _ _).mp (List.mem_of_mem_take hq)
    refine ⟨by omega, ?_⟩
    rw [h3, slot_ofL, List.getElem?_eq_getElem (by omega)]
    rfl

theorem copyAssign_stateWF (l l₂ : List α) (c c₂ : Nat) (b : Nat) :
    stateWF ((ofL l c).copyAssign (ofL l₂ c₂) b) := by
  by_cases hfit : l₂.length ≤ l.length + c
  · by_cases hb : l₂.length ≤ b
    · rw [copyAssign_ofL_fit l l₂ c c₂ b hfit hb]
      exact ofL_WF _ _
    · have hassign : (ofL l c).copyAssign (ofL l₂ c₂) b
          = (ofL l c).copyVector (ofL l₂ c₂) b := by
        simp only [Vec.copyAssign, ofL_size, ofL_cap]
        rw [if_pos (by omega)]
      rw [hassign]
      by_cases hmin : b < min l.length l₂.length
      · rw [copyVector_ofL_assign_throw l l₂ c c₂ b hmin]
        apply setAll_WF _ _ _ (mk_ofL_dat_WF l c)
        intro q hq
        obtain ⟨h1, h2⟩ :=
          (copyPairs_mem _ _ _ _).mp (List.mem_of_mem_take hq)
        refine ⟨by omega, ?_⟩
        rw [h2, slot_ofL, List.getElem?_eq_getElem (by omega)]
        rfl
      · have hn : l.length ≤ l₂.length := by omega
        rw [copyVector_ofL_construct_throw l l₂ c c₂ b hn (by omega) (by omega)]
        apply setAll_WF _ _ _ (mk_ofL_dat_WF l c)
        intro q hq
        obtain ⟨h1, h2⟩ := (copyPairs_mem _ _ _ _).mp hq
        refine ⟨by omega, ?_⟩
        rw [h2, slot_ofL, List.getElem?_eq_getElem (by omega)]
        rfl
  · by_cases hb : l₂.length ≤ b
    · rw [copyAssign_ofL_realloc l l₂ c c₂ b (by omega) hb]
      exact ofL_WF _ _
    · rw [copyAssign_ofL_realloc_throw l l₂ c c₂ b (by omega) (by omega)]
      exact ofL_WF _ _

theorem emplace_ok_inv (l : List α) (c p : Nat) (x : α) (nt : Bool) (b : Nat)
    (w : Vec α) (i : Nat) (hp : p ≤ l.length)
    (hw : (ofL l c).emplace p x nt b = .ok (w, i)) :
    i = p ∧ w.size = l.length + 1
      ∧ w.elems = l.take p ++ x :: l.drop p
      ∧ (c = 0 → w.cap = max 1 (2 * l.length))
      ∧ (1 ≤ c → w.cap = l.length + c) := by
  have hshape : ∀ c', w = ofL (l.take p ++ x :: l.drop p) c' →
      w.size = l.length + 1 ∧ w.elems = l.take p ++ x :: l.drop p := by
    rintro c' rfl
    refine ⟨?_, ofL_elems _ _⟩
    simp only [ofL_size, List.length_append, List.length_take,
      List.length_cons, List.length_drop]
    omega
  by_cases hc : c = 0
  · subst hc
    by_cases hb0 : b = 0
    · subst hb0
      rw [emplace_ofL_full_throw] at hw
      cases hw
    · by_cases hok : nt = true ∨ l.length ≤ b - 1
      · rw [emplace_ofL_full l x p nt b hp (by omega) hok] at hw
        cases hw
        have hgt := newCap_gt l.length
        have hmax := newCap_eq_max l.length
        refine ⟨rfl, (hshape _ rfl).1, (hshape _ rfl).2, ?_, by omega⟩
        intro
        rw [ofL_cap]
        simp only [List.length_append, List.length_take, List.length_cons,
          List.length_drop]
        omega
      · cases nt with
        | true => exact absurd (Or.inl rfl) hok
        | false =>
          rw [emplace_ofL_full_reloc_throw l x p b (by omega) (by omega)] at hw
          cases hw
  · by_cases hpn : p = l.length
    · subst hpn
      by_cases hb0 : b = 0
      · subst hb0
        rw [emplace_ofL_end_throw l c x nt (by omega)] at hw
        cases hw
      · rw [emplace_ofL_end l c x nt b (by omega) (by omega)] at hw
        cases hw
        refine ⟨rfl, ?_, ?_, by omega, ?_⟩
        · simp [ofL_size]
        · rw [ofL_elems]
          simp
        · intro
          rw [ofL_cap]
          simp only [List.length_append, List.length_cons, List.length_nil]
          omega
    · by_cases hb : l.length - p + 2 ≤ b
      · rw [emplace_ofL_mid l c x p nt b (by omega) (by omega) hb] at hw
        cases hw
        refine ⟨rfl, (hshape _ rfl).1, (hshape _ rfl).2, by omega, ?_⟩
        intro
        rw [ofL_cap]
        simp only [List.length_append, List.length_take, List.length_cons,
          List.length_drop]
        omega
      · obtain ⟨d, hd⟩ := emplace_ofL_mid_throw l c x p nt b (by omega)
          (by omega) (by omega)
        rw [hd] at hw
        cases hw

theorem pushBack_ok_inv (l : List α) (c : Nat) (x : α) (nt : Bool) (b : Nat)
    (w : Vec α) (hw : (ofL l c).pushBack x nt b = .ok w) :
    w.size = l.length + 1 ∧ w.elems = l ++ [x]
      ∧ (c = 0 → w.cap = max 1 (2 * l.length))
      ∧ (1 ≤ c → w.cap = l.length + c) := by
  by_cases hb0 : b = 0
  · subst hb0
    rw [pushBack_ofL_ctor_throw] at hw
    cases hw
  · by_cases hc : c = 0
    · subst hc
      by_cases hok : nt = true ∨ l.length ≤ b - 1
      · rw [pushBack_ofL_full l x nt b (by omega) hok] at hw
        cases hw
        have hgt := newCap_gt l.length
        have hmax := newCap_eq_max l.length
        refine ⟨by simp [ofL_size], ofL_elems _ _, ?_, by omega⟩
        intro
        rw [ofL_cap]
        simp only [List.length_append, List.length_cons, List.length_nil]
        omega
      · cases nt with
        | true => exact absurd (Or.inl rfl) hok
        | false =>
          rw [pushBack_ofL_reloc_throw l x b (by omega) (by omega)] at hw
          cases hw
    · rw [pushBack_ofL_spare l c x nt b (by omega) (by omega)] at hw
      cases hw
      refine ⟨by simp [ofL_size], ofL_elems _ _, by omega, ?_⟩
      intro
      rw [ofL_cap]
      simp only [List.length_append, List.length_cons, List.length_nil]
      omega

theorem erase_ok_inv (l : List α) (c p : Nat) (b : Nat) (w : Vec α) (i : Nat)
    (hp : p < l.length) (hw : (ofL l c).erase p b = .ok (w, i)) :
    i = p ∧ w.size = l.length - 1
      ∧ w.elems = l.take p ++ l.drop (p + 1)
      ∧ slot w.dat w.size = none
      ∧ w.cap = l.length + c := by
  by_cases hb : l.length - p - 1 ≤ b
  · rw [erase_ofL l c p b hp hb] at hw
    cases hw
    refine ⟨rfl, ?_, ofL_elems _ _, ?_, ?_⟩
    · simp only [ofL_size, List.length_append, List.length_take,
        List.length_drop]
      omega
    · rw [ofL_size, slot_ofL, List.getElem?_eq_none (le_refl _)]
    · rw [ofL_cap]
      simp only [List.length_append, List.length_take, List.length_drop]
      omega
  · rw [erase_ofL_throw l c p b (by omega)] at hw
    cases hw

theorem copyAssign_ok_inv (l l₂ : List α) (c c₂ : Nat) (b : Nat) (w : Vec α)
    (hw : (ofL l c).copyAssign (ofL l₂ c₂) b = .ok w) :
    w.elems = l₂
      ∧ (l₂.length ≤ l.length + c → w.cap = l.length + c)
      ∧ (l.length + c < l₂.length → w.cap = l₂.length) := by
  by_cases hfit : l₂.length ≤ l.length + c
  · by_cases hb : l₂.length ≤ b
    · rw [copyAssign_ofL_fit l l₂ c c₂ b hfit hb] at hw
      cases hw
      refine ⟨ofL_elems _ _, ?_, by omega⟩
      intro
      rw [ofL_cap]
      omega
    · have hassign : (ofL l c).copyAssign (ofL l₂ c₂) b
          = (ofL l c).copyVector (ofL l₂ c₂) b := by
        simp only [Vec.copyAssign, ofL_size, ofL_cap]
        rw [if_pos (by omega)]
      rw [hassign] at hw
      by_cases hmin : b < min l.length l₂.length
      · rw [copyVector_ofL_assign_throw l l₂ c c₂ b hmin] at hw
        cases hw
      · rw [copyVector_ofL_construct_throw l l₂ c c₂ b (by omega) (by omega)
          (by omega)] at hw
        cases hw
  · by_cases hb : l₂.length ≤ b
    · rw [copyAssign_ofL_realloc l l₂ c c₂ b (by omega) hb] at hw
      cases hw
      exact ⟨ofL_elems _ _, by omega, fun _ => by simp [ofL_cap]⟩
    · rw [copyAssign_ofL_realloc_throw l l₂ c c₂ b (by omega) (by omega)] at hw
      cases hw

/-- C1: the claim states that in the spare-capacity middle-insertion path
of `Emplace`, a throw in any step destroys the partially constructed tail
slot and restores the pre-call size and slot contents.  The code's `catch`
instead executes `operator delete(end())` — a raw deallocation that runs no
destructor (and frees a mid-block address never returned by `operator new`).
Evidence at the failing input `[10, 20]` with one spare slot, emplacing at
position 0, with the first move assignment of the shift throwing (budget 2:
the temporary's constructor and the tail duplicate's move construction
succeed, the shift's move assignment throws): the error state keeps the
tail duplicate live in slot 2 (`some 20`, never destroyed) and therefore
differs from the pre-call state, contradicting the claim; size alone is
restored. -/
theorem C1_emplace_mid_throw_leaves_tail_live :
    (ofL [10, 20] 1 : Vec Nat).emplace 0 30 true 2
        = .error ⟨[some 10, some 20, some 20], 2⟩
      ∧ slot ([some 10, some 20, some 20] : List (Option Nat)) 2 = some 20
      ∧ ¬ (Vec.mk [some (10 : Nat), some 20, some 20] 2 = ofL [10, 20] 1) := by
  refine ⟨rfl, rfl, ?_⟩
  decide

/-- C2: for a full vector (`size == capacity`), if the appended element's
constructor throws during a growth-triggering `PushBack` or `EmplaceBack`
(budget 0: the very first element operation of the call — the placement
construction of the new tail into the temporary storage — throws), the call
returns with the container exactly as it was: same size, same capacity,
same elements, because the new element is constructed before any existing
element is touched. -/
theorem C2_full_append_ctor_throw_strong (v : Vec α) (x : α) (nt : Bool)
    (hWF : v.WF) (hfull : v.size = v.cap) :
    v.pushBack x nt 0 = .error v ∧ v.emplaceBack x nt 0 = .error v := by
  have hv := WF_eq_ofL v hWF
  rw [show v.cap - v.size = 0 by omega] at hv
  constructor
  · rw [hv]
    exact pushBack_ofL_ctor_throw _ _ _ _
  · rw [hv]
    simp only [Vec.emplaceBack, ofL_size]
    exact emplace_ofL_full_throw _ _ _ _

theorem C2_witness :
    (ofL [1, 2] 0 : Vec Nat).WF
      ∧ (ofL [1, 2] 0 : Vec Nat).size = (ofL [1, 2] 0 : Vec Nat).cap
      ∧ (ofL [1, 2] 0 : Vec Nat).pushBack 9 true 0 = .error (ofL [1, 2] 0)
      ∧ (ofL [1, 2] 0 : Vec Nat).emplaceBack 9 true 0 = .error (ofL [1, 2] 0) :=
  ⟨by decide, by decide,
    (C2_full_append_ctor_throw_strong (ofL [1, 2] 0) 9 true (by decide)
      (by decide)).1,
    (C2_full_append_ctor_throw_strong (ofL [1, 2] 0) 9 true (by decide)
      (by decide)).2⟩

/-- C3: for every vector of length `n` and position `p ≤ n`, a sufficient
budget makes `Emplace` succeed, and every successful `Emplace`/`Insert` at
`p` yields a vector of length `n + 1` whose element at index `p` is the new
value with all other elements keeping their relative order (elements
formerly at `[p, n)` now at `[p+1, n+1)`), returning the iterator index
`p`.  `Insert` is literally `Emplace`. -/
theorem C3_emplace_inserts_at_position (v : Vec α) (p : Nat) (x : α)
    (nt : Bool) (b : Nat) (hWF : v.WF) (hp : p ≤ v.size) :
    (v.size + 2 ≤ b → ∃ w : Vec α, v.emplace p x nt b = .ok (w, p)) ∧
    (∀ w i, v.emplace p x nt b = .ok (w, i) →
      i = p ∧ w.size = v.size + 1
        ∧ w.elems = v.elems.take p ++ x :: v.elems.drop p) ∧
    v.insertAt p x nt b = v.emplace p x nt b := by
  obtain ⟨l, c, hv⟩ : ∃ l c, v = ofL l c :=
    ⟨v.elems, v.cap - v.size, WF_eq_ofL v hWF⟩
  subst hv
  rw [ofL_size] at hp
  simp only [ofL_size, ofL_elems]
  refine ⟨?_, ?_, rfl⟩
  · intro hb
    by_cases hc : c = 0
    · subst hc
      exact ⟨_, emplace_ofL_full l x p nt b hp (by omega) (Or.inr (by omega))⟩
    · by_cases hpn : p = l.length
      · subst hpn
        exact ⟨_, emplace_ofL_end l c x nt b (by omega) (by omega)⟩
      · exact ⟨_, emplace_ofL_mid l c x p nt b (by omega) (by omega) (by omega)⟩
  · intro w i hw
    obtain ⟨h1, h2, h3, -, -⟩ := emplace_ok_inv l c p x nt b w i hp hw
    exact ⟨h1, h2, h3⟩

theorem C3_witness :
    ((ofL [1, 2, 3] 1 : Vec Nat).size + 2 ≤ 10 →
      ∃ w : Vec Nat, (ofL [1, 2, 3] 1).emplace 1 9 true 10 = .ok (w, 1)) ∧
    (∀ w i, (ofL [1, 2, 3] 1 : Vec Nat).emplace 1 9 true 10 = .ok (w, i) →
      i = 1 ∧ w.size = (ofL [1, 2, 3] 1 : Vec Nat).size + 1
        ∧ w.elems = (ofL [1, 2, 3] 1 : Vec Nat).elems.take 1
            ++ 9 :: (ofL [1, 2, 3] 1 : Vec Nat).elems.drop 1) ∧
    (ofL [1, 2, 3] 1 : Vec Nat).insertAt 1 9 true 10
      = (ofL [1, 2, 3] 1 : Vec Nat).emplace 1 9 true 10 :=
  C3_emplace_inserts_at_position (ofL [1, 2, 3] 1) 1 9 true 10 (by decide)
    (by decide)

/-- C4: for every non-empty vector and valid position `p < n`, a sufficient
budget makes `Erase` succeed, and every successful `Erase(p)` shifts the
following elements one slot left, destroys the vacated last slot (slot
`w.size` of the result is uninitialized afterwards), decrements the size to
`n - 1`, preserves the order of the remaining elements, and returns the
iterator index `p` (which equals `w.size`, i.e. `end()`, exactly when the
last element was erased). -/
theorem C4_erase_removes_at_position (v : Vec α) (p : Nat) (b : Nat)
    (hWF : v.WF) (hp : p < v.size) :
    (v.size ≤ b → ∃ w : Vec α, v.erase p b = .ok (w, p)) ∧
    (∀ w i, v.erase p b = .ok (w, i) →
      i = p ∧ w.size = v.size - 1
        ∧ w.elems = v.elems.take p ++ v.elems.drop (p + 1)
        ∧ slot w.dat w.size = none) := by
  obtain ⟨l, c, hv⟩ : ∃ l c, v = ofL l c :=
    ⟨v.elems, v.cap - v.size, WF_eq_ofL v hWF⟩
  subst hv
  rw [ofL_size] at hp
  simp only [ofL_size, ofL_elems]
  constructor
  · intro hb
    exact ⟨_, erase_ofL l c p b hp (by omega)⟩
  · intro w i hw
    obtain ⟨h1, h2, h3, h4, -⟩ := erase_ok_inv l c p b w i hp hw
    exact ⟨h1, h2, h3, h4⟩

theorem C4_witness :
    ((ofL [5, 6, 7] 1 : Vec Nat).size ≤ 10 →
      ∃ w : Vec Nat, (ofL [5, 6, 7] 1).erase 1 10 = .ok (w, 1)) ∧
    (∀ w i, (ofL [5, 6, 7] 1 : Vec Nat).erase 1 10 = .ok (w, i) →
      i = 1 ∧ w.size = (ofL [5, 6, 7] 1 : Vec Nat).size - 1
        ∧ w.elems = (ofL [5, 6, 7] 1 : Vec Nat).elems.take 1
            ++ (ofL [5, 6, 7] 1 : Vec Nat).elems.drop 2
        ∧ slot w.dat w.size = none) :=
  C4_erase_removes_at_position (ofL [5, 6, 7] 1) 1 10 (by decide) (by decide)

/-- C5: copy assignment onto a distinct target.  With sufficient budget the
assignment succeeds on both paths, and if the source does not fit and the
copy construction throws (budget below the source's element count) the
target is returned untouched.  Moreover every successful copy assignment
leaves the target element-wise equal to the source, with the capacity
unchanged when the source's size fits within the target's capacity (storage
reused in place, no reallocation) and equal to the source's size otherwise
(a full copy was built and swapped in). -/
theorem C5_copy_assignment (u o : Vec α) (b bt : Nat) (hu : u.WF) (ho : o.WF)
    (hb : o.size ≤ b) (hbt : bt < o.size) :
    (∃ w, u.copyAssign o b = .ok w) ∧
    (u.cap < o.size → u.copyAssign o bt = .error u) ∧
    (∀ w b', u.copyAssign o b' = .ok w →
      w.elems = o.elems
        ∧ (o.size ≤ u.cap → w.cap = u.cap)
        ∧ (u.cap < o.size → w.cap = o.size)) := by
  obtain ⟨l, c, hv⟩ : ∃ l c, u = ofL l c :=
    ⟨u.elems, u.cap - u.size, WF_eq_ofL u hu⟩
  obtain ⟨l₂, c₂, hw⟩ : ∃ l₂ c₂, o = ofL l₂ c₂ :=
    ⟨o.elems, o.cap - o.size, WF_eq_ofL o ho⟩
  subst hv
  subst hw
  rw [ofL_size] at hb hbt
  simp only [ofL_size, ofL_cap, ofL_elems]
  refine ⟨?_, ?_, ?_⟩
  · by_cases hfit : l₂.length ≤ l.length + c
    · exact ⟨_, copyAssign_ofL_fit l l₂ c c₂ b hfit hb⟩
    · exact ⟨_, copyAssign_ofL_realloc l l₂ c c₂ b (by omega) hb⟩
  · intro hgt
    exact copyAssign_ofL_realloc_throw l l₂ c c₂ bt (by omega) (by omega)
  · intro w b' hok
    obtain ⟨h1, h2, h3⟩ := copyAssign_ok_inv l l₂ c c₂ b' w hok
    exact ⟨h1, fun h => by rw [h2 (by omega)], fun h => h3 (by omega)⟩

theorem C5_witness :
    ((∃ w : Vec Nat, (ofL [1] 0).copyAssign (ofL [7, 8, 9] 0) 9 = .ok w) ∧
    ((ofL [1] 0 : Vec Nat).cap < (ofL [7, 8, 9] 0 : Vec Nat).size →
      (ofL [1] 0 : Vec Nat).copyAssign (ofL [7, 8, 9] 0) 2 = .error (ofL [1] 0)) ∧
    (∀ w b', (ofL [1] 0 : Vec Nat).copyAssign (ofL [7, 8, 9] 0) b' = .ok w →
      w.elems = (ofL [7, 8, 9] 0 : Vec Nat).elems
        ∧ ((ofL [7, 8, 9] 0 : Vec Nat).size ≤ (ofL [1] 0 : Vec Nat).cap →
            w.cap = (ofL [1] 0 : Vec Nat).cap)
        ∧ ((ofL [1] 0 : Vec Nat).cap < (ofL [7, 8, 9] 0 : Vec Nat).size →
            w.cap = (ofL [7, 8, 9] 0 : Vec Nat).size))) ∧
    (∃ w : Vec Nat, (ofL [1, 2, 3, 4] 2).copyAssign (ofL [7, 8] 4) 9 = .ok w) :=
  ⟨C5_copy_assignment (ofL [1] 0) (ofL [7, 8, 9] 0) 9 2 (by decide) (by decide)
      (by decide) (by decide),
    (C5_copy_assignment (ofL [1, 2, 3, 4] 2) (ofL [7, 8] 4) 9 1 (by decide)
      (by decide) (by decide) (by decide)).1⟩

/-- C6: `Reserve(k)` with `k ≤ capacity()` is an exact no-op: the call
returns at the initial capacity check with the container state identical
(same size, capacity and element values) and the budget untouched — no
reallocation path is entered. -/
theorem C6_reserve_noop (v : Vec α) (k : Nat) (nt : Bool) (b : Nat)
    (hk : k ≤ v.cap) : v.reserve k nt b = .ok (v, b) := by
  simp only [Vec.reserve]
  rw [if_pos (by omega)]

theorem C6_witness :
    2 ≤ (ofL [1, 2, 3] 1 : Vec Nat).cap
      ∧ (ofL [1, 2, 3] 1 : Vec Nat).reserve 2 true 0
          = .ok (ofL [1, 2, 3] 1, 0) :=
  ⟨by decide, C6_reserve_noop (ofL [1, 2, 3] 1) 2 true 0 (by decide)⟩

/-- C7: for a full vector (`size == capacity`), a sufficient budget makes
the growth-triggering `PushBack` and positional `Emplace` succeed, and
every such successful call yields capacity exactly `max(1, 2*size)` — in
particular an empty zero-capacity vector grows to capacity 1 — with size
one larger and all previously held values preserved in order. -/
theorem C7_growth_capacity (v : Vec α) (x : α) (p : Nat) (nt : Bool)
    (b : Nat) (hWF : v.WF) (hfull : v.size = v.cap) (hp : p ≤ v.size) :
    (v.size + 2 ≤ b → (∃ w, v.pushBack x nt b = .ok w)
      ∧ (∃ w, v.emplace p x nt b = .ok (w, p))) ∧
    (∀ w, v.pushBack x nt b = .ok w →
      w.cap = max 1 (2 * v.size) ∧ w.size = v.size + 1
        ∧ w.elems = v.elems ++ [x]) ∧
    (∀ w i, v.emplace p x nt b = .ok (w, i) →
      w.cap = max 1 (2 * v.size) ∧ w.size = v.size + 1
        ∧ w.elems = v.elems.take p ++ x :: v.elems.drop p) := by
  obtain ⟨l, c, hv⟩ : ∃ l c, v = ofL l c :=
    ⟨v.elems, v.cap - v.size, WF_eq_ofL v hWF⟩
  subst hv
  rw [ofL_size, ofL_cap] at hfull
  have hc : c = 0 := by omega
  subst hc
  rw [ofL_size] at hp
  simp only [ofL_size, ofL_elems]
  refine ⟨?_, ?_, ?_⟩
  · intro hb
    exact ⟨⟨_, pushBack_ofL_full l x nt b (by omega) (Or.inr (by omega))⟩,
      ⟨_, emplace_ofL_full l x p nt b hp (by omega) (Or.inr (by omega))⟩⟩
  · intro w hok
    obtain ⟨h1, h2, h3, -⟩ := pushBack_ok_inv l 0 x nt b w hok
    exact ⟨h3 rfl, h1, h2⟩
  · intro w i hok
    obtain ⟨-, h1, h2, h3, -⟩ := emplace_ok_inv l 0 p x nt b w i hp hok
    exact ⟨h3 rfl, h1, h2⟩

theorem C7_witness :
    (((ofL [4, 5] 0 : Vec Nat).size + 2 ≤ 10 →
      (∃ w : Vec Nat, (ofL [4, 5] 0).pushBack 9 true 10 = .ok w)
        ∧ (∃ w : Vec Nat, (ofL [4, 5] 0).emplace 1 9 true 10 = .ok (w, 1))) ∧
    (∀ w, (ofL [4, 5] 0 : Vec Nat).pushBack 9 true 10 = .ok w →
      w.cap = max 1 (2 * (ofL [4, 5] 0 : Vec Nat).size)
        ∧ w.size = (ofL [4, 5] 0 : Vec Nat).size + 1
        ∧ w.elems = (ofL [4, 5] 0 : Vec Nat).elems ++ [9]) ∧
    (∀ w i, (ofL [4, 5] 0 : Vec Nat).emplace 1 9 true 10 = .ok (w, i) →
      w.cap = max 1 (2 * (ofL [4, 5] 0 : Vec Nat).size)
        ∧ w.size = (ofL [4, 5] 0 : Vec Nat).size + 1
        ∧ w.elems = (ofL [4, 5] 0 : Vec Nat).elems.take 1
            ++ 9 :: (ofL [4, 5] 0 : Vec Nat).elems.drop 1)) ∧
    (∃ w : Vec Nat, (ofL ([] : List Nat) 0).pushBack 9 true 10 = .ok w) :=
  ⟨C7_growth_capacity (ofL [4, 5] 0) 9 1 true 10 (by decide) (by decide)
      (by decide),
    ((C7_growth_capacity (ofL ([] : List Nat) 0) 9 0 true 10 (by decide)
      (by decide) (by decide)).1 (by decide)).1⟩

/-- C8: constructing a vector of size `n` yields `size() == n` and
`capacity() == n`, with every slot in `[0, n)` holding a value-initialized
(default) element.  In this model the `n` slots are the `n` distinct
positions of the block list, each holding `default`; `elems` lists them in
slot order. -/
theorem C8_sized_construction (α : Type) [Inhabited α] (n : Nat) :
    (mkVec α n).size = n ∧ (mkVec α n).cap = n
      ∧ (mkVec α n).elems = List.replicate n default
      ∧ ∀ j, j < n → slot (mkVec α n).dat j = some default := by
  rw [mkVec_eq_ofL]
  refine ⟨by simp [ofL_size], by simp [ofL_cap], ofL_elems _ _, ?_⟩
  intro j hj
  rw [slot_ofL, List.getElem?_replicate, if_pos hj]

theorem C8_witness :
    (mkVec Nat 3).size = 3 ∧ (mkVec Nat 3).cap = 3
      ∧ (mkVec Nat 3).elems = List.replicate 3 default
      ∧ slot (mkVec Nat 3).dat 0 = some default :=
  ⟨(C8_sized_construction Nat 3).1, (C8_sized_construction Nat 3).2.1,
    (C8_sized_construction Nat 3).2.2.1,
    (C8_sized_construction Nat 3).2.2.2 0 (by decide)⟩

/-- C10: `PopBack` on an empty vector is a no-op: the `size_ > 0` guard
fails, no destructor runs, the state (and in particular the size, which
never wraps below zero) is returned unchanged. -/
theorem C10_popBack_empty_noop (v : Vec α) (h : v.size = 0) :
    v.popBack = v := by
  simp only [Vec.popBack]
  rw [if_neg (by omega)]

theorem C10_witness :
    (ofL ([] : List Nat) 2).size = 0
      ∧ (ofL ([] : List Nat) 2).popBack = ofL ([] : List Nat) 2 :=
  ⟨by decide, C10_popBack_empty_noop (ofL ([] : List Nat) 2) (by decide)⟩

/-- C9 counterexample: the claim asserts the liveness invariant also holds
on every error return.  It fails on the error return of the spare-capacity
middle-position `Emplace`: at `[5, 6]` with one spare slot, emplacing `7`
at position 0 with the shift's move assignment throwing (budget 2), the
error state is `⟨[some 5, some 6, some 6], 2⟩` — slot 2 lies beyond
`size = 2` yet holds a live element (the never-destroyed tail duplicate),
so the invariant is violated. -/
theorem C9_counterexample :
    (ofL [5, 6] 1 : Vec Nat).emplace 0 7 true 2
        = .error ⟨[some 5, some 6, some 6], 2⟩
      ∧ ¬ (Vec.mk [some (5 : Nat), some 6, some 6] 2).WF := by
  refine ⟨rfl, ?_⟩
  decide

/-- C9 (amended): the invariant — `size ≤ capacity` with exactly the slots
`[0, size)` holding live elements — holds for every freshly constructed
vector and is preserved by every public operation on normal returns, and
on error returns of every operation **except** the spare-capacity
middle-position `Emplace`/`Insert` path, whose `catch` block runs a raw
`operator delete(end())` instead of destroying the tail duplicate and can
therefore leave a live element beyond `size` (see the counterexample).
For `Emplace` the theorem asserts preservation on every normal return, and
on error returns only of the end-position and reallocating paths. -/
theorem C9_invariant_preservation (α : Type) [Inhabited α] (v o : Vec α)
    (x : α) (nt : Bool) (n k p b : Nat) (hv : v.WF) (ho : o.WF) :
    (emptyVec α).WF
    ∧ (mkVec α n).WF
    ∧ (∀ w, o.copyCtor b = some w → w.WF)
    ∧ (o.moveCtor.1.WF ∧ o.moveCtor.2.WF)
    ∧ ((v.swap o).1.WF ∧ (v.swap o).2.WF)
    ∧ ((v.moveAssign o).1.WF ∧ (v.moveAssign o).2.WF)
    ∧ v.popBack.WF
    ∧ stateWF2 (v.reserve k nt b)
    ∧ stateWF (v.resize k nt b)
    ∧ stateWF (v.pushBack x nt b)
    ∧ stateWF2 (v.emplaceBack x nt b)
    ∧ (p ≤ v.size → ∀ w i, v.emplace p x nt b = .ok (w, i) → w.WF)
    ∧ (p ≤ v.size → ∀ w i, v.insertAt p x nt b = .ok (w, i) → w.WF)
    ∧ (p ≤ v.size → p = v.size ∨ v.size = v.cap →
        stateWF2 (v.emplace p x nt b))
    ∧ (p < v.size → stateWF2 (v.erase p b))
    ∧ stateWF (v.copyAssign o b) := by
  obtain ⟨l, c, hvl⟩ : ∃ l c, v = ofL l c :=
    ⟨v.elems, v.cap - v.size, WF_eq_ofL v hv⟩
  obtain ⟨l₂, c₂, hol⟩ : ∃ l₂ c₂, o = ofL l₂ c₂ :=
    ⟨o.elems, o.cap - o.size, WF_eq_ofL o ho⟩
  subst hvl
  subst hol
  refine ⟨ofL_WF [] 0, ?_, ?_, ?_, ⟨ofL_WF l₂ c₂, ofL_WF l c⟩,
    ⟨ofL_WF l₂ c₂, ofL_WF l c⟩, ?_, reserve_stateWF l c k nt b,
    resize_stateWF l c k nt b, pushBack_stateWF l c x nt b, ?_, ?_, ?_, ?_,
    ?_, copyAssign_stateWF l l₂ c c₂ b⟩
  · rw [mkVec_eq_ofL]
    exact ofL_WF _ _
  · intro w hw
    by_cases hb : l₂.length ≤ b
    · rw [copyCtor_ofL l₂ c₂ b hb] at hw
      cases hw
      exact ofL_WF _ _
    · rw [copyCtor_ofL_throw l₂ c₂ b (by omega)] at hw
      cases hw
  · exact ⟨ofL_WF l₂ c₂, ofL_WF [] 0⟩
  · by_cases h : l = []
    · subst h
      rw [popBack_ofL_empty]
      exact ofL_WF _ _
    · rw [popBack_ofL l c h]
      exact ofL_WF _ _
  · simp only [Vec.emplaceBack, ofL_size]
    exact emplace_safe_stateWF l c l.length x nt b (le_refl _) (Or.inl rfl)
  · rw [ofL_size]
    exact fun hp => emplace_ok_WF l c p x nt b hp
  · rw [ofL_size]
    exact fun hp => emplace_ok_WF l c p x nt b hp
  · rw [ofL_size, ofL_cap]
    intro hp hsafe
    exact emplace_safe_stateWF l c p x nt b hp
      (by rcases hsafe with h | h
          · exact Or.inl h
          · exact Or.inr (by omega))
  · rw [ofL_size]
    exact fun hp => erase_stateWF l c p b hp

theorem C9_witness :
    stateWF ((ofL [1, 2] 1 : Vec Nat).pushBack 9 true 5)
      ∧ stateWF2 ((ofL [1, 2] 1 : Vec Nat).erase 0 5) := by
  obtain ⟨-, -, -, -, -, -, -, -, -, h10, -, -, -, -, h15, -⟩ :=
    C9_invariant_preservation Nat (ofL [1, 2] 1) (ofL [3] 0) 9 true 2 3 0 5
      (by decide) (by decide)
  exact ⟨h10, h15 (by decide)⟩
